import Mathlib

/-!
# roundest-go: the ranking computation, the vote transaction and the random pair

A shallow embedding of the three GraphQL resolvers of `main.go` (and of the
two that `cmd/http/server.go` repeats verbatim), followed by the properties
checked against them.

* Go's `int` is a 64-bit two's-complement integer: sums are wrapped by `wrapInt`.
* Go's `float64` is IEEE-754 binary64.  Every value the ranking computes is a
  finite, normal number (the divisor is at least 1, all magnitudes stay between
  `2^-63` and `2^70`), so a value is represented by the rational it denotes and
  every operation is the exact rational operation followed by `f64round`,
  rounding to 53 significant bits, ties to even.
* `sort.Slice` belongs to Go's standard library.  The resolver takes it as a
  parameter constrained by its documented contract (`SortSliceSpec`);
  `goSortSlice` transcribes the pattern-defeating quicksort that Go 1.19 and
  later run behind `sort.Slice`, and `goSort_spec` proves that the
  transcription meets the contract on every slice.
* The store is an external collaborator.  Its failures are an input
  (`Faults`), its transactions are an explicit state machine (`Conn`).
* Output written by `fmt.Println` is not modelled; the index expressions it
  evaluates are.
-/

namespace Roundest

/-! ## Machine arithmetic -/

/-- Two's-complement wrap-around of a mathematical integer into Go's 64-bit `int`. -/
def wrapInt (x : Int) : Int := (x + 2 ^ 63) % 2 ^ 64 - 2 ^ 63

/-- Fuel-driven helper of `ilog2`. -/
def ilog2Aux : Nat → Nat → Nat
  | 0, _ => 0
  | fuel + 1, n => if n < 2 then 0 else ilog2Aux fuel (n / 2) + 1

/-- Floor of the binary logarithm (`0` at `0` and `1`). -/
def ilog2 (n : Nat) : Nat := ilog2Aux n n

/-- The integer nearest to `a / b`, ties going to the even neighbour. -/
def roundHalfEven (a b : Nat) : Nat :=
  let q := a / b
  let r := a % b
  if 2 * r < b then q else if b < 2 * r then q + 1 else if q % 2 = 0 then q else q + 1

/-- The binary exponent `e` of the positive rational `n / d`: `2^e ≤ n / d < 2^(e+1)`. -/
def f64exponent (n d : Nat) : Int :=
  let e : Int := (ilog2 n : Int) - (ilog2 d : Int)
  if d * 2 ^ e.toNat ≤ n * 2 ^ (-e).toNat then e else e - 1

/-- Rounding of the positive rational `n / d` to 53 significant bits. -/
def f64roundPos (n d : Nat) : ℚ :=
  let s := f64exponent n d - 52
  (roundHalfEven (n * 2 ^ (-s).toNat) (d * 2 ^ s.toNat) : ℚ) * 2 ^ s

/-- Round-to-nearest-even onto binary64 (normal range). -/
def f64round (q : ℚ) : ℚ :=
  if q = 0 then 0
  else if q < 0 then -f64roundPos q.num.natAbs q.den
  else f64roundPos q.num.natAbs q.den

/-- A finite `float64`, represented by the rational number it denotes. -/
abbrev Float64 := ℚ

/-- Go's conversion `float64(n)` of an `int`. -/
def f64ofInt (n : Int) : Float64 := f64round (n : ℚ)

/-- Go's `/` on two `float64` values, for a non-zero divisor. -/
def f64div (a b : Float64) : Float64 := f64round (a / b)

/-- Go's `*` on two `float64` values. -/
def f64mul (a b : Float64) : Float64 := f64round (a * b)

/-- Go's `+` on two `float64` values. -/
def f64add (a b : Float64) : Float64 := f64round (a + b)

/-! ## Data model -/

/-- The `Pokemon` struct: one row of the `pokemon` table.  Timestamps are instants. -/
structure Pokemon where
  ID : Int
  Name : String
  DexID : Int
  UpVotes : Int
  DownVotes : Int
  InsertedAt : Int
  UpdatedAt : Int
  deriving DecidableEq, Repr

/-- The `Result` struct: one row of the ranked list. -/
structure Result where
  Name : String
  ID : Int
  DexID : Int
  UpVotes : Int
  DownVotes : Int
  TotalVotes : Int
  WinPercentage : Float64
  LossPercentage : Float64
  deriving DecidableEq, Repr

/-- A run-time panic of the Go program. -/
inductive RuntimePanic where
  | indexOutOfRange (index : Nat) (length : Nat)
  deriving DecidableEq, Repr

/-- An error reported by the store (`db.Begin`, `tx.Exec`, `tx.Commit`, `db.Select`). -/
structure DbError where
  msg : String
  deriving DecidableEq, Repr

/-- What a resolver hands back to the GraphQL executor besides a value. -/
inductive ResolveError where
  | db (e : DbError)
  | panic (p : RuntimePanic)
  deriving DecidableEq, Repr

/-! ## The `results` resolver -/

/-- Body of the loop of `results` (main.go 165-184): the row built for one entity. -/
def resultOf (pokemon : Pokemon) : Result :=
  let totalVotes := wrapInt (pokemon.UpVotes + pokemon.DownVotes)
  let winPercentage : Float64 :=
    if totalVotes > 0 then f64mul (f64div (f64ofInt pokemon.UpVotes) (f64ofInt totalVotes)) 100
    else 0
  let lossPercentage : Float64 :=
    if totalVotes > 0 then f64mul (f64div (f64ofInt pokemon.DownVotes) (f64ofInt totalVotes)) 100
    else 0
  { Name := pokemon.Name
    ID := pokemon.ID
    DexID := pokemon.DexID
    UpVotes := pokemon.UpVotes
    DownVotes := pokemon.DownVotes
    TotalVotes := totalVotes
    WinPercentage := winPercentage
    LossPercentage := lossPercentage }

/-- The comparator handed to `sort.Slice` (main.go 190-198), on the two rows it indexes. -/
def less (a b : Result) : Bool :=
  if a.WinPercentage = b.WinPercentage then decide (a.UpVotes > b.UpVotes)
  else decide (a.WinPercentage > b.WinPercentage)

/-- A sorting routine in the shape of `sort.Slice`: a comparator and the slice contents. -/
abbrev SliceSorter := (Result → Result → Bool) → List Result → List Result

/-- The requirement `sort.Slice` puts on its comparator: a transitive ordering whose
incomparability is transitive as well. -/
structure LessOK {α : Type} (lt : α → α → Bool) : Prop where
  asymm : ∀ a b, lt a b = true → lt b a = false
  trans : ∀ a b c, lt a b = true → lt b c = true → lt a c = true
  incomp : ∀ a b c, lt a b = false → lt b c = false → lt a c = false

/-- The documented contract of `sort.Slice`: for an admissible comparator the slice ends
up holding a rearrangement of its elements in which no element is less than its
predecessor (what `sort.SliceIsSorted` checks).  Nothing is promised about equal elements. -/
def SortSliceSpec (sortSlice : SliceSorter) : Prop :=
  ∀ lt xs, LessOK lt →
    (sortSlice lt xs).Perm xs ∧
    ∀ i (h : i + 1 < (sortSlice lt xs).length),
      lt ((sortSlice lt xs).get ⟨i + 1, h⟩) ((sortSlice lt xs).get ⟨i, Nat.lt_of_succ_lt h⟩) = false

/-- The ranking computation of the `results` resolver (main.go 163-200) on the rows the
store returned: build the rows, print fields of `results[0]`, sort, return. -/
def ranking (sortSlice : SliceSorter) (pokemon : List Pokemon) :
    Except RuntimePanic (List Result) :=
  let results := pokemon.map resultOf
  match results with
  | [] => .error (.indexOutOfRange 0 results.length)
  | _ :: _ => .ok (sortSlice less results)

/-- The `results` resolver (main.go 156-201); `selected` is the outcome of `db.Select`. -/
def results (sortSlice : SliceSorter) (selected : Except DbError (List Pokemon)) :
    Except ResolveError (List Result) :=
  match selected with
  | .error err => .error (.db err)
  | .ok pokemon =>
    match ranking sortSlice pokemon with
    | .error p => .error (.panic p)
    | .ok rows => .ok rows

/-- An entity with the given id and counters (other fields blank). -/
def entity (id up down : Int) : Pokemon :=
  { ID := id, Name := "", DexID := 0, UpVotes := up, DownVotes := down,
    InsertedAt := 0, UpdatedAt := 0 }

/-- A stable insertion sort, one routine meeting `SortSliceSpec`. -/
def stableSort : SliceSorter :=
  fun lt xs => xs.insertionSort (fun a b => lt b a = false)

/-! ## `sort.Slice` as Go 1.19 and later implement it

A transcription of `pdqsort_func` and its helpers (`sort/zsortfunc.go`), on a list indexed
like the slice.  Loops run on fuel bounded by the slice length; `goSortSlice_spec` shows
that the fuel never runs out. -/

section Pdq

variable {α : Type}

/-- `data.Less(i, j)` on the current slice contents. -/
def lessAt (lt : α → α → Bool) (xs : List α) (i j : Nat) : Bool :=
  match xs[i]?, xs[j]? with
  | some x, some y => lt x y
  | _, _ => false

/-- `data.Swap(i, j)` on the current slice contents. -/
def swapAt (xs : List α) (i j : Nat) : List α :=
  match xs[i]?, xs[j]? with
  | some x, some y => (xs.set i y).set j x
  | _, _ => xs

/-- Inner loop of `insertionSort_func`: `for j := i; j > a && less(j, j-1); j--`. -/
def insertionSortInner (lt : α → α → Bool) (a : Nat) : Nat → List α → List α
  | 0, xs => xs
  | j + 1, xs =>
    if j + 1 > a && lessAt lt xs (j + 1) j then insertionSortInner lt a j (swapAt xs (j + 1) j)
    else xs

/-- `insertionSort_func(data, a, b)`. -/
def insertionSort_func (lt : α → α → Bool) (xs : List α) (a b : Nat) : List α :=
  (List.range' (a + 1) (b - (a + 1))).foldl (fun ys i => insertionSortInner lt a i ys) xs

/-- `siftDown_func(data, lo, hi, first)`, `root` starting at `lo`. -/
def siftDown_func (lt : α → α → Bool) (hi first : Nat) : Nat → Nat → List α → List α
  | 0, _, xs => xs
  | fuel + 1, root, xs =>
    let child := 2 * root + 1
    if child ≥ hi then xs
    else
      let child :=
        if child + 1 < hi && lessAt lt xs (first + child) (first + child + 1) then child + 1
        else child
      if !lessAt lt xs (first + root) (first + child) then xs
      else siftDown_func lt hi first fuel child (swapAt xs (first + root) (first + child))

/-- `heapSort_func(data, a, b)`. -/
def heapSort_func (lt : α → α → Bool) (xs : List α) (a b : Nat) : List α :=
  let first := a
  let lo := 0
  let hi := b - a
  let built := (List.range ((hi - 1) / 2 + 1)).reverse.foldl
    (fun ys i => siftDown_func lt hi first hi i ys) xs
  (List.range hi).reverse.foldl
    (fun ys i => siftDown_func lt i first hi lo (swapAt ys first (first + i))) built

/-- The loop `for i <= j && less(i, a) { i++ }` of `partition_func`. -/
def scanLess (lt : α → α → Bool) (xs : List α) (a j : Nat) : Nat → Nat → Nat
  | 0, i => i
  | fuel + 1, i => if i ≤ j && lessAt lt xs i a then scanLess lt xs a j fuel (i + 1) else i

/-- The loop `for i <= j && !less(j, a) { j-- }` of `partition_func`. -/
def scanNotLess (lt : α → α → Bool) (xs : List α) (a i : Nat) : Nat → Nat → Nat
  | 0, j => j
  | fuel + 1, j => if i ≤ j && !lessAt lt xs j a then scanNotLess lt xs a i fuel (j - 1) else j

/-- The closing `for` loop of `partition_func`; yields the slice and the final `j`. -/
def partitionLoop (lt : α → α → Bool) (a : Nat) : Nat → List α → Nat → Nat → List α × Nat
  | 0, xs, _, j => (xs, j)
  | fuel + 1, xs, i, j =>
    let i := scanLess lt xs a j xs.length i
    let j := scanNotLess lt xs a i xs.length j
    if i > j then (xs, j)
    else partitionLoop lt a fuel (swapAt xs i j) (i + 1) (j - 1)

/-- `partition_func(data, a, b, pivot)`: slice, new pivot index, `alreadyPartitioned`. -/
def partition_func (lt : α → α → Bool) (xs : List α) (a b pivot : Nat) : List α × Nat × Bool :=
  let xs := swapAt xs a pivot
  let i := a + 1
  let j := b - 1
  let i := scanLess lt xs a j xs.length i
  let j := scanNotLess lt xs a i xs.length j
  if i > j then (swapAt xs j a, j, true)
  else
    let xs := swapAt xs i j
    let (xs, j) := partitionLoop lt a xs.length xs (i + 1) (j - 1)
    (swapAt xs j a, j, false)

/-- The loop `for i <= j && !less(a, i) { i++ }` of `partitionEqual_func`. -/
def scanNotGreater (lt : α → α → Bool) (xs : List α) (a j : Nat) : Nat → Nat → Nat
  | 0, i => i
  | fuel + 1, i => if i ≤ j && !lessAt lt xs a i then scanNotGreater lt xs a j fuel (i + 1) else i

/-- The loop `for i <= j && less(a, j) { j-- }` of `partitionEqual_func`. -/
def scanGreater (lt : α → α → Bool) (xs : List α) (a i : Nat) : Nat → Nat → Nat
  | 0, j => j
  | fuel + 1, j => if i ≤ j && lessAt lt xs a j then scanGreater lt xs a i fuel (j - 1) else j

/-- The `for` loop of `partitionEqual_func`; yields the slice and the final `i`. -/
def partitionEqualLoop (lt : α → α → Bool) (a : Nat) : Nat → List α → Nat → Nat → List α × Nat
  | 0, xs, i, _ => (xs, i)
  | fuel + 1, xs, i, j =>
    let i := scanNotGreater lt xs a j xs.length i
    let j := scanGreater lt xs a i xs.length j
    if i > j then (xs, i)
    else partitionEqualLoop lt a fuel (swapAt xs i j) (i + 1) (j - 1)

/-- `partitionEqual_func(data, a, b, pivot)`. -/
def partitionEqual_func (lt : α → α → Bool) (xs : List α) (a b pivot : Nat) : List α × Nat :=
  let xs := swapAt xs a pivot
  partitionEqualLoop lt a xs.length xs (a + 1) (b - 1)

/-- The loop `for i < b && !less(i, i-1) { i++ }` of `partialInsertionSort_func`. -/
def scanSorted (lt : α → α → Bool) (xs : List α) (b : Nat) : Nat → Nat → Nat
  | 0, i => i
  | fuel + 1, i => if i < b && !lessAt lt xs i (i - 1) then scanSorted lt xs b fuel (i + 1) else i

/-- The loop `for j := i - 1; j >= 1; j--` shifting the smaller element to the left. -/
def shiftLeft (lt : α → α → Bool) : Nat → List α → List α
  | 0, xs => xs
  | j + 1, xs => if !lessAt lt xs (j + 1) j then xs else shiftLeft lt j (swapAt xs (j + 1) j)

/-- The loop `for j := i + 1; j < b; j++` shifting the greater element to the right. -/
def shiftRight (lt : α → α → Bool) (b : Nat) : Nat → Nat → List α → List α
  | 0, _, xs => xs
  | fuel + 1, j, xs =>
    if j < b then
      if !lessAt lt xs j (j - 1) then xs else shiftRight lt b fuel (j + 1) (swapAt xs j (j - 1))
    else xs

/-- The outer loop of `partialInsertionSort_func`, `steps` iterations left. -/
def partialInsertionLoop (lt : α → α → Bool) (a b : Nat) : Nat → Nat → List α → List α × Bool
  | 0, _, xs => (xs, false)
  | steps + 1, i, xs =>
    let i := scanSorted lt xs b xs.length i
    if i = b then (xs, true)
    else if b - a < 50 then (xs, false)
    else
      let xs := swapAt xs i (i - 1)
      let xs := if i - a ≥ 2 then shiftLeft lt (i - 1) xs else xs
      let xs := if b - i ≥ 2 then shiftRight lt b xs.length (i + 1) xs else xs
      partialInsertionLoop lt a b steps i xs

/-- `partialInsertionSort_func(data, a, b)`, `maxSteps = 5`, `shortestShifting = 50`. -/
def partialInsertionSort_func (lt : α → α → Bool) (xs : List α) (a b : Nat) : List α × Bool :=
  partialInsertionLoop lt a b 5 (a + 1) xs

/-- One step of the `xorshift` generator on 64 bits. -/
def xorshiftNext (r : Nat) : Nat :=
  let r := r ^^^ ((r <<< 13) % 2 ^ 64)
  let r := r ^^^ (r >>> 17)
  r ^^^ ((r <<< 5) % 2 ^ 64)

/-- `bits.Len(uint(n))`. -/
def bitsLen (n : Nat) : Nat := if n = 0 then 0 else ilog2 n + 1

/-- `breakPatterns_func(data, a, b)`. -/
def breakPatterns_func (xs : List α) (a b : Nat) : List α :=
  let length := b - a
  if length ≥ 8 then
    let modulus := 2 ^ bitsLen length
    let idx := a + (length / 4) * 2 - 1
    let r1 := xorshiftNext length
    let r2 := xorshiftNext r1
    let r3 := xorshiftNext r2
    let other := fun (r : Nat) =>
      let o := r % modulus
      if o ≥ length then o - length else o
    let xs := swapAt xs (idx - 1 + 0) (a + other r1)
    let xs := swapAt xs (idx - 1 + 1) (a + other r2)
    swapAt xs (idx - 1 + 2) (a + other r3)
  else xs

/-- `order2_func`: the two indices in order, and the updated swap count. -/
def order2_func (lt : α → α → Bool) (xs : List α) (a b swaps : Nat) : Nat × Nat × Nat :=
  if lessAt lt xs b a then (b, a, swaps + 1) else (a, b, swaps)

/-- `median_func`: index of the median of three, and the updated swap count. -/
def median_func (lt : α → α → Bool) (xs : List α) (a b c swaps : Nat) : Nat × Nat :=
  let (a, b, swaps) := order2_func lt xs a b swaps
  let (b, _, swaps) := order2_func lt xs b c swaps
  let (_, b, swaps) := order2_func lt xs a b swaps
  (b, swaps)

/-- `medianAdjacent_func`. -/
def medianAdjacent_func (lt : α → α → Bool) (xs : List α) (a swaps : Nat) : Nat × Nat :=
  median_func lt xs (a - 1) a (a + 1) swaps

/-- The `sortedHint` of `choosePivot_func`. -/
inductive SortedHint where
  | unknownHint
  | increasingHint
  | decreasingHint
  deriving DecidableEq, Repr

/-- The median search of `choosePivot_func` (`shortestNinther = 50`): the candidate index
and the number of swaps counted. -/
def choosePivotMedian (lt : α → α → Bool) (xs : List α) (a b : Nat) : Nat × Nat :=
  let l := b - a
  let i := a + l / 4 * 1
  let j := a + l / 4 * 2
  let k := a + l / 4 * 3
  if l ≥ 8 then
    if l ≥ 50 then
      let (i, s) := medianAdjacent_func lt xs i 0
      let (j, s) := medianAdjacent_func lt xs j s
      let (k, s) := medianAdjacent_func lt xs k s
      median_func lt xs i j k s
    else median_func lt xs i j k 0
  else (j, 0)

/-- `choosePivot_func(data, a, b)`, `maxSwaps = 4 * 3`. -/
def choosePivot_func (lt : α → α → Bool) (xs : List α) (a b : Nat) : Nat × SortedHint :=
  let (j, swaps) := choosePivotMedian lt xs a b
  if swaps = 0 then (j, .increasingHint)
  else if swaps = 12 then (j, .decreasingHint)
  else (j, .unknownHint)

/-- `reverseRange_func(data, a, b)`. -/
def reverseRange_func (xs : List α) (a b : Nat) : List α :=
  (List.range ((b - a) / 2)).foldl (fun ys k => swapAt ys (a + k) (b - 1 - k)) xs

/-- One round of `pdqsort_func` up to the partitioning: the patterns are broken after an
unbalanced round, the pivot is chosen, a decreasing range is reversed, a range that looks
ordered is tried by partial insertion sort.  Yields the slice, the pivot and whether the
range is in order already. -/
def pdqPrepare (lt : α → α → Bool) (xs : List α) (a b : Nat)
    (wasBalanced wasPartitioned : Bool) : List α × Nat × Bool :=
  let xs := if !wasBalanced then breakPatterns_func xs a b else xs
  let (pivot, hint) := choosePivot_func lt xs a b
  let xs := if hint = .decreasingHint then reverseRange_func xs a b else xs
  let pivot := if hint = .decreasingHint then (b - 1) - (pivot - a) else pivot
  let hint := if hint = .decreasingHint then SortedHint.increasingHint else hint
  let (xs, sorted) :=
    if wasBalanced && wasPartitioned && hint = .increasingHint then
      partialInsertionSort_func lt xs a b
    else (xs, false)
  (xs, pivot, sorted)

/-- `pdqsort_func(data, a, b, limit)`, `maxInsertion = 12`.  One unit of fuel per loop
iteration or call; `none` when the fuel runs out. -/
def pdqsort_func (lt : α → α → Bool) :
    Nat → List α → Nat → Nat → Nat → Bool → Bool → Option (List α)
  | 0, _, _, _, _, _, _ => none
  | fuel + 1, xs, a, b, limit, wasBalanced, wasPartitioned =>
    let length := b - a
    if length ≤ 12 then some (insertionSort_func lt xs a b)
    else if limit = 0 then some (heapSort_func lt xs a b)
    else
      let limit := if !wasBalanced then limit - 1 else limit
      let (xs, pivot, sorted) := pdqPrepare lt xs a b wasBalanced wasPartitioned
      if sorted then some xs
      else if a > 0 && !lessAt lt xs (a - 1) pivot then
        let (xs, mid) := partitionEqual_func lt xs a b pivot
        pdqsort_func lt fuel xs mid b limit wasBalanced wasPartitioned
      else
        let (xs, mid, alreadyPartitioned) := partition_func lt xs a b pivot
        let leftLen := mid - a
        let rightLen := b - mid
        let balanceThreshold := length / 8
        if leftLen < rightLen then
          match pdqsort_func lt fuel xs a mid limit true true with
          | none => none
          | some xs =>
            pdqsort_func lt fuel xs (mid + 1) b limit (leftLen ≥ balanceThreshold) alreadyPartitioned
        else
          match pdqsort_func lt fuel xs (mid + 1) b limit true true with
          | none => none
          | some xs =>
            pdqsort_func lt fuel xs a mid limit (rightLen ≥ balanceThreshold) alreadyPartitioned

/-- `sort.Slice(x, less)` of Go 1.19 and later. -/
def goSortSlice (lt : α → α → Bool) (xs : List α) : Option (List α) :=
  pdqsort_func lt (xs.length + 1) xs 0 xs.length (bitsLen xs.length) true true

end Pdq

/-- Go's `sort.Slice` as a `SliceSorter` (the slice is left as it is should the fuel of the
transcription run out, which Go cannot do). -/
def goSort : SliceSorter := fun lt xs => (goSortSlice lt xs).getD xs

/-- A routine meeting `SortSliceSpec` that is not stable: equal rows come out in
reverse input order. -/
def reversingSort : SliceSorter := fun lt xs => stableSort lt xs.reverse

/-! ## The `vote` and `randomPair` resolvers -/

/-- The store connection: the committed table and the working copy of the open
transaction, if one is open. -/
structure Conn where
  committed : List Pokemon
  tx : Option (List Pokemon)
  deriving DecidableEq, Repr

/-- The outcome the store chooses for each of the four calls a vote makes
(`none`: the call succeeds). -/
structure Faults where
  onBegin : Option DbError
  onExecUp : Option DbError
  onExecDown : Option DbError
  onCommit : Option DbError
  deriving DecidableEq, Repr

/-- The store answering every call successfully. -/
def noFaults : Faults := ⟨none, none, none, none⟩

/-- The value of the `vote` field: `map[string]interface{}{"success": true}`. -/
structure VoteResult where
  success : Bool
  deriving DecidableEq, Repr

/-- `UPDATE pokemon SET up_votes = up_votes + 1 WHERE id = $1`. -/
def incUpVotes (id : Int) (table : List Pokemon) : List Pokemon :=
  table.map (fun p => if p.ID = id then { p with UpVotes := p.UpVotes + 1 } else p)

/-- `UPDATE pokemon SET down_votes = down_votes + 1 WHERE id = $1`. -/
def incDownVotes (id : Int) (table : List Pokemon) : List Pokemon :=
  table.map (fun p => if p.ID = id then { p with DownVotes := p.DownVotes + 1 } else p)

/-- `db.Begin()`: opens a transaction on a copy of the committed table. -/
def dbBegin (fault : Option DbError) (c : Conn) : Option DbError × Conn :=
  match fault with
  | some err => (some err, c)
  | none => (none, { c with tx := some c.committed })

/-- `tx.Exec(stmt, arg)`: runs the statement on the working copy; the result is discarded
by the caller, only the error is looked at. -/
def txExec (fault : Option DbError) (stmt : List Pokemon → List Pokemon) (c : Conn) :
    Option DbError × Conn :=
  match fault with
  | some err => (some err, c)
  | none => (none, { c with tx := c.tx.map stmt })

/-- `tx.Commit()`: installs the working copy, or reports an error and discards it. -/
def txCommit (fault : Option DbError) (c : Conn) : Option DbError × Conn :=
  match c.tx with
  | none => (some ⟨"sql: transaction has already been committed or rolled back"⟩, c)
  | some work =>
    match fault with
    | some err => (some err, { c with tx := none })
    | none => (none, { committed := work, tx := none })

/-- `tx.Rollback()`: discards the working copy; without effect once the transaction is
over.  The deferred call drops its return value. -/
def txRollback (c : Conn) : Conn := { c with tx := none }

/-- The `vote` resolver (main.go 99-137, server.go 61-99). -/
def vote (f : Faults) (upvoteId downvoteId : Int) (c : Conn) :
    Except DbError VoteResult × Conn :=
  match dbBegin f.onBegin c with
  | (some err, c) => (.error err, c)
  | (none, c) =>
    let body : Except DbError VoteResult × Conn :=
      match txExec f.onExecUp (incUpVotes upvoteId) c with
      | (some err, c) => (.error err, c)
      | (none, c) =>
        match txExec f.onExecDown (incDownVotes downvoteId) c with
        | (some err, c) => (.error err, c)
        | (none, c) =>
          match txCommit f.onCommit c with
          | (some err, c) => (.error err, c)
          | (none, c) => (.ok ⟨true⟩, c)
    (body.1, txRollback body.2)

/-- The value of the `randomPair` field. -/
structure RandomPair where
  pokemonOne : Pokemon
  pokemonTwo : Pokemon
  deriving DecidableEq, Repr

/-- The `randomPair` resolver (main.go 211-231, server.go 124-144); `selected` is the
outcome of the `ORDER BY RANDOM() LIMIT 2` query.  `none` is Go's `nil` value. -/
def randomPair (selected : Except DbError (List Pokemon)) :
    Except ResolveError (Option RandomPair) :=
  match selected with
  | .error err => .error (.db err)
  | .ok pokemon =>
    if pokemon.length < 2 then .ok none
    else
      match pokemon[0]?, pokemon[1]? with
      | some one, some two => .ok (some ⟨one, two⟩)
      | none, _ => .error (.panic (.indexOutOfRange 0 pokemon.length))
      | _, none => .error (.panic (.indexOutOfRange 1 pokemon.length))

/-- A store holding `table`, no transaction open. -/
def idle (table : List Pokemon) : Conn := ⟨table, none⟩

/-! ## Reference values and predicates used by the statements -/

/-- The order the ranked list is claimed to have: each row against its successor. -/
def RankOrdered (out : List Result) : Prop :=
  ∀ i (h : i + 1 < out.length),
    (out.get ⟨i, Nat.lt_of_succ_lt h⟩).WinPercentage > (out.get ⟨i + 1, h⟩).WinPercentage ∨
      ((out.get ⟨i, Nat.lt_of_succ_lt h⟩).WinPercentage = (out.get ⟨i + 1, h⟩).WinPercentage ∧
        (out.get ⟨i, Nat.lt_of_succ_lt h⟩).UpVotes ≥ (out.get ⟨i + 1, h⟩).UpVotes)

/-- The example of the specification: ids 1, 2, 3 with votes 8/2, 6/0 and 0/0. -/
def specExample : List Pokemon := [entity 1 8 2, entity 2 6 0, entity 3 0 0]

/-- Thirteen entities in the order the store returns them (`up_votes` descending): id 1
with 5 wins and 5 losses, id 2 with a single win, ids 3 to 13 without votes. -/
def tieExample : List Pokemon :=
  [entity 1 5 5, entity 2 1 0] ++ (List.range' 3 11).map (fun i => entity i 0 0)

/-- The identity and counters a ranking row takes over from its entity. -/
def Result.carried (r : Result) : String × Int × Int × Int × Int :=
  (r.Name, r.ID, r.DexID, r.UpVotes, r.DownVotes)

/-- The identity and counters of an entity. -/
def Pokemon.carried (p : Pokemon) : String × Int × Int × Int × Int :=
  (p.Name, p.ID, p.DexID, p.UpVotes, p.DownVotes)

/-- Modelled on the specification's formula, over the rationals:
`winPercentage = upVotes / totalVotes * 100` if `totalVotes > 0`, else `0`. -/
def exactWinPercentage (p : Pokemon) : ℚ :=
  if p.UpVotes + p.DownVotes > 0 then (p.UpVotes : ℚ) / ((p.UpVotes + p.DownVotes : Int) : ℚ) * 100
  else 0

/-- Modelled on the specification's formula, over the rationals: the same for losses. -/
def exactLossPercentage (p : Pokemon) : ℚ :=
  if p.UpVotes + p.DownVotes > 0 then
    (p.DownVotes : ℚ) / ((p.UpVotes + p.DownVotes : Int) : ℚ) * 100
  else 0

/-- The unit roundoff of binary64. -/
def f64eps : ℚ := 1 / 2 ^ 53

/-- The slice `ys` arises from `xs` by rearranging the positions `a ≤ k < b` only. -/
def Within {α : Type} (d : α) (a b : Nat) (xs ys : List α) : Prop :=
  ys.length = xs.length ∧ ys.Perm xs ∧
    (∀ k, k < a ∨ b ≤ k → ys.getD k d = xs.getD k d) ∧
    (∀ k, a ≤ k → k < b → ∃ m, a ≤ m ∧ m < b ∧ ys.getD k d = xs.getD m d)

/-- The heap of `heapSort_func`, `hi` elements from position `first` on: from node `lo` on
no node is less than one of its children. -/
def IsHeapFrom {α : Type} (lt : α → α → Bool) (d : α) (first lo hi : Nat) (xs : List α) :
    Prop :=
  ∀ k c, lo ≤ k → (c = 2 * k + 1 ∨ c = 2 * k + 2) → c < hi →
    lt (xs.getD (first + k) d) (xs.getD (first + c) d) = false

/-- A heap with a hole at `root`: every other node from `lo` on is not less than its
children, and the parent of `root` is not less than the children of `root`. -/
def HeapExcept {α : Type} (lt : α → α → Bool) (d : α) (first lo hi root : Nat)
    (xs : List α) : Prop :=
  (∀ k c, lo ≤ k → k ≠ root → (c = 2 * k + 1 ∨ c = 2 * k + 2) → c < hi →
    lt (xs.getD (first + k) d) (xs.getD (first + c) d) = false) ∧
  (∀ c p, (c = 2 * root + 1 ∨ c = 2 * root + 2) → c < hi → lo ≤ p →
    (root = 2 * p + 1 ∨ root = 2 * p + 2) →
    lt (xs.getD (first + p) d) (xs.getD (first + c) d) = false)

/-- The positions `a ≤ k < b` of the slice are in order: no element is less than an
earlier one. -/
def SortedRange {α : Type} (lt : α → α → Bool) (d : α) (a b : Nat) (xs : List α) : Prop :=
  ∀ i j, a ≤ i → i < j → j < b → lt (xs.getD j d) (xs.getD i d) = false

/-! # Properties -/

/-! ## The comparator and the sorting contract -/

/-- The comparator is true exactly on a higher win percentage, or an equal one with more
up-votes. -/
theorem less_iff (a b : Result) :
    less a b = true ↔
      a.WinPercentage > b.WinPercentage ∨
        (a.WinPercentage = b.WinPercentage ∧ a.UpVotes > b.UpVotes) := by
  unfold less
  by_cases h : a.WinPercentage = b.WinPercentage
  · simp [h]
  · simp [h]

/-- A row `b` is not less than `a` exactly when `a` may stand before `b` in the ranking. -/
theorem less_false_iff (a b : Result) :
    less b a = false ↔
      a.WinPercentage > b.WinPercentage ∨
        (a.WinPercentage = b.WinPercentage ∧ a.UpVotes ≥ b.UpVotes) := by
  rw [← Bool.not_eq_true, less_iff]
  constructor
  · intro h
    rcases lt_trichotomy a.WinPercentage b.WinPercentage with h1 | h1 | h1
    · exact absurd (Or.inl h1) h
    · right
      refine ⟨h1, ?_⟩
      by_contra h2
      exact h (Or.inr ⟨h1.symm, by omega⟩)
    · exact Or.inl h1
  · rintro (h | ⟨h1, h2⟩) (h3 | ⟨h3, h4⟩)
    · exact lt_asymm h h3
    · rw [h3] at h; exact lt_irrefl _ h
    · rw [h1] at h3; exact lt_irrefl _ h3
    · omega

/-- The comparator of the resolver is admissible for `sort.Slice`. -/
theorem less_ok : LessOK less := by
  refine ⟨?_, ?_, ?_⟩
  · intro a b h
    rw [less_iff] at h
    rw [less_false_iff]
    rcases h with h | ⟨h1, h2⟩
    · exact Or.inl h
    · exact Or.inr ⟨h1, by omega⟩
  · intro a b c h1 h2
    rw [less_iff] at h1 h2 ⊢
    rcases h1 with h1 | ⟨h1, h1'⟩ <;> rcases h2 with h2 | ⟨h2, h2'⟩
    · exact Or.inl (lt_trans h2 h1)
    · exact Or.inl (h2 ▸ h1)
    · exact Or.inl (h1 ▸ h2)
    · exact Or.inr ⟨h1.trans h2, by omega⟩
  · intro a b c h1 h2
    rw [less_false_iff] at h1 h2 ⊢
    rcases h1 with h1 | ⟨h1, h1'⟩ <;> rcases h2 with h2 | ⟨h2, h2'⟩
    · exact Or.inl (lt_trans h1 h2)
    · exact Or.inl (h2 ▸ h1)
    · exact Or.inl (h1.symm ▸ h2)
    · exact Or.inr ⟨h2.trans h1, by omega⟩

/-- Adjacent order extends to every pair, incomparability being transitive. -/
theorem pairwise_of_adjacent {lt : Result → Result → Bool} (hlt : LessOK lt) (l : List Result)
    (h : ∀ i (h : i + 1 < l.length),
      lt (l.get ⟨i + 1, h⟩) (l.get ⟨i, Nat.lt_of_succ_lt h⟩) = false) :
    l.Pairwise (fun a b => lt b a = false) := by
  haveI : IsTrans Result (fun a b => lt b a = false) :=
    ⟨fun a b c h1 h2 => hlt.incomp c b a h2 h1⟩
  rw [← List.chain'_iff_pairwise, List.chain'_iff_get]
  intro i hi
  exact h i (by omega)

/-- Order on every pair gives order on adjacent positions. -/
theorem adjacent_of_pairwise {lt : Result → Result → Bool} (l : List Result)
    (h : l.Pairwise (fun a b => lt b a = false)) :
    ∀ i (h : i + 1 < l.length),
      lt (l.get ⟨i + 1, h⟩) (l.get ⟨i, Nat.lt_of_succ_lt h⟩) = false := by
  intro i hi
  rw [List.pairwise_iff_get] at h
  exact h ⟨i, Nat.lt_of_succ_lt hi⟩ ⟨i + 1, hi⟩ (by simp)

/-- Insertion sort orders its output, for an admissible comparator. -/
theorem insertionSort_sorted {lt : Result → Result → Bool} (hlt : LessOK lt)
    (xs : List Result) :
    (xs.insertionSort (fun a b => lt b a = false)).Pairwise (fun a b => lt b a = false) := by
  haveI : IsTrans Result (fun a b => lt b a = false) :=
    ⟨fun a b c h1 h2 => hlt.incomp c b a h2 h1⟩
  haveI : IsTotal Result (fun a b => lt b a = false) := ⟨fun a b => by
    cases hab : lt a b
    · exact Or.inr rfl
    · exact Or.inl (hlt.asymm a b hab)⟩
  exact List.sorted_insertionSort _ xs

/-- The stable insertion sort meets the contract of `sort.Slice`. -/
theorem stableSort_spec : SortSliceSpec stableSort := by
  intro lt xs hlt
  exact ⟨List.perm_insertionSort _ xs, adjacent_of_pairwise _ (insertionSort_sorted hlt xs)⟩

/-- The tie-reversing sort meets the contract of `sort.Slice` as well. -/
theorem reversingSort_spec : SortSliceSpec reversingSort := by
  intro lt xs hlt
  exact ⟨(List.perm_insertionSort _ xs.reverse).trans (List.reverse_perm xs),
    adjacent_of_pairwise _ (insertionSort_sorted hlt xs.reverse)⟩

/-- On a non-empty input the ranking returns the sorted rows. -/
theorem ranking_of_ne_nil (s : SliceSorter) (pokemon : List Pokemon) (hne : pokemon ≠ []) :
    ranking s pokemon = .ok (s less (pokemon.map resultOf)) := by
  cases pokemon with
  | nil => exact absurd rfl hne
  | cons p ps => rfl

/-- Every routine meeting the contract ranks the example of the specification alike. -/
theorem specExample_sorted_rows (s : SliceSorter) (hs : SortSliceSpec s) :
    s less (specExample.map resultOf) =
      [resultOf (entity 2 6 0), resultOf (entity 1 8 2), resultOf (entity 3 0 0)] := by
  obtain ⟨hperm, hadj⟩ := hs less (specExample.map resultOf) less_ok
  have hsorted := pairwise_of_adjacent less_ok _ hadj
  have htarget : ([resultOf (entity 2 6 0), resultOf (entity 1 8 2), resultOf (entity 3 0 0)] :
      List Result).Pairwise (fun a b => less b a = false) := by decide!
  have hperm2 : ([resultOf (entity 2 6 0), resultOf (entity 1 8 2), resultOf (entity 3 0 0)] :
      List Result).Perm (specExample.map resultOf) := List.Perm.swap _ _ _
  have hanti : ∀ a ∈ specExample.map resultOf, ∀ b ∈ specExample.map resultOf,
      less b a = false → less a b = false → a = b := by decide!
  refine List.Perm.eq_of_sorted ?_ hsorted htarget (hperm.trans hperm2.symm)
  intro a b ha hb
  exact hanti a (hperm.subset ha) b (hperm2.subset hb)

/-- The outcome of a vote, by the first call that fails. -/
theorem vote_eq (f : Faults) (A B : Int) (table : List Pokemon) :
    vote f A B (idle table) =
      match f.onBegin, f.onExecUp, f.onExecDown, f.onCommit with
      | some e, _, _, _ => (.error e, idle table)
      | none, some e, _, _ => (.error e, idle table)
      | none, none, some e, _ => (.error e, idle table)
      | none, none, none, some e => (.error e, idle table)
      | none, none, none, none =>
        (.ok ⟨true⟩, idle (incDownVotes B (incUpVotes A table))) := by
  rcases f with ⟨_ | e1, _ | e2, _ | e3, _ | e4⟩ <;> rfl

/-- A statement whose id matches no row leaves the table as it is. -/
theorem incUpVotes_unmatched (id : Int) (table : List Pokemon) (h : ∀ p ∈ table, p.ID ≠ id) :
    incUpVotes id table = table := by
  unfold incUpVotes
  conv_rhs => rw [← List.map_id table]
  apply List.map_congr_left
  intro p hp
  simp [h p hp]

/-- A statement whose id matches no row leaves the table as it is. -/
theorem incDownVotes_unmatched (id : Int) (table : List Pokemon)
    (h : ∀ p ∈ table, p.ID ≠ id) : incDownVotes id table = table := by
  unfold incDownVotes
  conv_rhs => rw [← List.map_id table]
  apply List.map_congr_left
  intro p hp
  simp [h p hp]

/-- The up-vote statement keeps every id. -/
theorem incUpVotes_ids (id : Int) (table : List Pokemon) :
    ∀ p ∈ incUpVotes id table, ∃ q ∈ table, q.ID = p.ID := by
  intro p hp
  unfold incUpVotes at hp
  rw [List.mem_map] at hp
  obtain ⟨q, hq, rfl⟩ := hp
  refine ⟨q, hq, ?_⟩
  split_ifs <;> rfl

/-! ## Rounding error of the binary64 model -/

/-- The fuel-driven logarithm brackets its argument between two powers of two. -/
theorem ilog2Aux_spec (fuel : Nat) : ∀ n, n ≤ fuel → 1 ≤ n →
    2 ^ ilog2Aux fuel n ≤ n ∧ n < 2 ^ (ilog2Aux fuel n + 1) := by
  induction fuel with
  | zero => intro n h1 h2; omega
  | succ fuel ih =>
    intro n h1 h2
    unfold ilog2Aux
    by_cases hn : n < 2
    · simp only [hn, if_true]
      constructor <;> simp <;> omega
    · simp only [hn, if_false]
      obtain ⟨ih1, ih2⟩ := ih (n / 2) (by omega) (by omega)
      rw [pow_succ] at ih2 ⊢
      constructor
      · omega
      · rw [pow_succ]; omega

/-- The binary logarithm brackets its argument between two powers of two. -/
theorem ilog2_spec (n : Nat) (hn : 1 ≤ n) : 2 ^ ilog2 n ≤ n ∧ n < 2 ^ (ilog2 n + 1) :=
  ilog2Aux_spec n n (le_refl n) hn

/-- A power of two with an integer exponent, as a quotient of two natural powers. -/
theorem two_zpow_eq (s : Int) : (2 : ℚ) ^ s = (2 : ℚ) ^ s.toNat / (2 : ℚ) ^ (-s).toNat := by
  rcases le_or_lt 0 s with h | h
  · have h1 : (-s).toNat = 0 := by omega
    rw [h1, pow_zero, div_one]
    conv_lhs => rw [← Int.toNat_of_nonneg h]
    rw [zpow_natCast]
  · have h1 : s.toNat = 0 := by omega
    rw [h1, pow_zero, one_div, ← zpow_natCast, Int.toNat_of_nonneg (by omega), ← zpow_neg, neg_neg]

/-- The binary exponent does not overshoot: `2^e ≤ n / d`. -/
theorem f64exponent_le (n d : Nat) (hn : 1 ≤ n) (hd : 1 ≤ d) :
    (2 : ℚ) ^ f64exponent n d ≤ (n : ℚ) / d := by
  have hd0 : (0 : ℚ) < d := by exact_mod_cast hd
  unfold f64exponent
  simp only []
  split_ifs with hc
  · rw [two_zpow_eq, div_le_div_iff₀ (by positivity) hd0]
    have : ((d * 2 ^ ((ilog2 n : Int) - (ilog2 d : Int)).toNat : Nat) : ℚ) ≤
        ((n * 2 ^ (-((ilog2 n : Int) - (ilog2 d : Int))).toNat : Nat) : ℚ) := by exact_mod_cast hc
    push_cast at this
    linarith
  · have h1 := (ilog2_spec n hn).1
    have h2 := (ilog2_spec d hd).2
    have h1q : (2 : ℚ) ^ ilog2 n ≤ n := by exact_mod_cast h1
    have h2q : (d : ℚ) ≤ 2 ^ (ilog2 d + 1) := by exact_mod_cast h2.le
    have e : ((ilog2 n : Int) - (ilog2 d : Int) - 1) = (ilog2 n : Int) - ((ilog2 d + 1 : Nat) : Int) := by
      push_cast; ring
    rw [e, zpow_sub₀ (by norm_num), zpow_natCast, zpow_natCast]
    exact div_le_div₀ (by positivity) h1q hd0 h2q

/-- The binary exponent does not undershoot: `n / d < 2^(e+1)`. -/
theorem f64exponent_lt (n d : Nat) (hn : 1 ≤ n) (hd : 1 ≤ d) :
    (n : ℚ) / d < (2 : ℚ) ^ (f64exponent n d + 1) := by
  have hd0 : (0 : ℚ) < d := by exact_mod_cast hd
  unfold f64exponent
  simp only []
  split_ifs with hc
  · have h1 := (ilog2_spec n hn).2
    have h2 := (ilog2_spec d hd).1
    have h1q : (n : ℚ) < 2 ^ (ilog2 n + 1) := by exact_mod_cast h1
    have h2q : (2 : ℚ) ^ ilog2 d ≤ d := by exact_mod_cast h2
    have e : ((ilog2 n : Int) - (ilog2 d : Int) + 1) = ((ilog2 n + 1 : Nat) : Int) - (ilog2 d : Int) := by
      push_cast; ring
    rw [e, zpow_sub₀ (by norm_num), zpow_natCast, zpow_natCast]
    exact div_lt_div₀ (by exact_mod_cast h1) h2q (by positivity) (by positivity)
  · rw [sub_add_cancel, two_zpow_eq, div_lt_div_iff₀ hd0 (by positivity)]
    have : ¬ ((d * 2 ^ ((ilog2 n : Int) - (ilog2 d : Int)).toNat : Nat) : ℚ) ≤
        ((n * 2 ^ (-((ilog2 n : Int) - (ilog2 d : Int))).toNat : Nat) : ℚ) := by exact_mod_cast hc
    push_cast at this
    linarith

/-- Rounding to the nearest integer is off by at most one half. -/
theorem roundHalfEven_error (a b : Nat) (hb : 0 < b) :
    |(roundHalfEven a b : ℚ) - (a : ℚ) / b| ≤ 1 / 2 := by
  have hbq : (0 : ℚ) < b := by exact_mod_cast hb
  have hdiv : (a : ℚ) = (b : ℚ) * ((a / b : Nat) : ℚ) + ((a % b : Nat) : ℚ) := by
    exact_mod_cast (Nat.div_add_mod a b).symm
  have hmod : ((a % b : Nat) : ℚ) < b := by exact_mod_cast Nat.mod_lt a hb
  have hmod0 : (0 : ℚ) ≤ ((a % b : Nat) : ℚ) := by positivity
  have key : (a : ℚ) / b = ((a / b : Nat) : ℚ) + ((a % b : Nat) : ℚ) / b := by
    field_simp
    linarith
  rw [abs_le]
  unfold roundHalfEven
  simp only []
  have hr : ((a % b : Nat) : ℚ) / b < 1 := by rw [div_lt_one hbq]; exact hmod
  have hr0 : (0 : ℚ) ≤ ((a % b : Nat) : ℚ) / b := by positivity
  split_ifs with h1 h2 h3
  · have : (2 : ℚ) * ((a % b : Nat) : ℚ) < b := by exact_mod_cast h1
    have : ((a % b : Nat) : ℚ) / b ≤ 1 / 2 := by
      rw [div_le_div_iff₀ hbq (by norm_num)]; linarith
    rw [key]; constructor <;> linarith
  · have : (b : ℚ) < 2 * ((a % b : Nat) : ℚ) := by exact_mod_cast h2
    have : 1 / 2 ≤ ((a % b : Nat) : ℚ) / b := by
      rw [div_le_div_iff₀ (by norm_num) hbq]; linarith
    rw [key]; push_cast; constructor <;> linarith
  · have e : (2 : ℚ) * ((a % b : Nat) : ℚ) = b := by
      have : 2 * (a % b) = b := by omega
      exact_mod_cast this
    have : ((a % b : Nat) : ℚ) / b = 1 / 2 := by
      rw [div_eq_div_iff hbq.ne' (by norm_num)]; linarith
    rw [key]; constructor <;> linarith
  · have e : (2 : ℚ) * ((a % b : Nat) : ℚ) = b := by
      have : 2 * (a % b) = b := by omega
      exact_mod_cast this
    have : ((a % b : Nat) : ℚ) / b = 1 / 2 := by
      rw [div_eq_div_iff hbq.ne' (by norm_num)]; linarith
    rw [key]; push_cast; constructor <;> linarith

/-- Rounding a positive rational moves it by at most the unit roundoff, relatively. -/
theorem f64roundPos_error (n d : Nat) (hn : 1 ≤ n) (hd : 1 ≤ d) :
    |f64roundPos n d - (n : ℚ) / d| ≤ (n : ℚ) / d * f64eps := by
  have hd0 : (0 : ℚ) < d := by exact_mod_cast hd
  have hle := f64exponent_le n d hn hd
  unfold f64roundPos
  simp only []
  generalize f64exponent n d = e at hle ⊢
  set s : Int := e - 52 with hs
  have hb : 0 < d * 2 ^ s.toNat := Nat.mul_pos hd (by positivity)
  have herr := roundHalfEven_error (n * 2 ^ (-s).toNat) (d * 2 ^ s.toNat) hb
  have hpos : (0 : ℚ) < 2 ^ s := by positivity
  have hquot : ((n * 2 ^ (-s).toNat : Nat) : ℚ) / ((d * 2 ^ s.toNat : Nat) : ℚ) =
      (n : ℚ) / d / 2 ^ s := by
    rw [two_zpow_eq s]
    push_cast
    field_simp
  rw [hquot] at herr
  have h1 : ((roundHalfEven (n * 2 ^ (-s).toNat) (d * 2 ^ s.toNat) : ℚ)) * 2 ^ s - (n : ℚ) / d =
      ((roundHalfEven (n * 2 ^ (-s).toNat) (d * 2 ^ s.toNat) : ℚ) - (n : ℚ) / d / 2 ^ s) * 2 ^ s := by
    field_simp
    ring
  rw [h1, abs_mul, abs_of_pos hpos]
  have h2 : (2 : ℚ) ^ s = 2 ^ e * (2 * f64eps) := by
    rw [hs, zpow_sub₀ (by norm_num)]
    unfold f64eps
    norm_num
    ring
  calc |(roundHalfEven (n * 2 ^ (-s).toNat) (d * 2 ^ s.toNat) : ℚ) - (n : ℚ) / d / 2 ^ s| * 2 ^ s
      ≤ 1 / 2 * 2 ^ s := mul_le_mul_of_nonneg_right herr hpos.le
    _ = 2 ^ e * f64eps := by rw [h2]; ring
    _ ≤ (n : ℚ) / d * f64eps := mul_le_mul_of_nonneg_right hle (by unfold f64eps; positivity)

/-- Rounding moves a rational by at most the unit roundoff, relatively. -/
theorem f64round_error (q : ℚ) : |f64round q - q| ≤ |q| * f64eps := by
  unfold f64round
  have hden : 1 ≤ q.den := q.den_pos
  split_ifs with h0 hneg
  · simp [h0]
  · have hnum : q.num < 0 := Rat.num_neg.2 hneg
    have hn : 1 ≤ q.num.natAbs := by omega
    have hq : (q.num.natAbs : ℚ) / q.den = -q := by
      have h1 : ((q.num.natAbs : Int) : ℚ) = -(q.num : ℚ) := by
        rw [← Int.cast_neg]; congr 1; omega
      have h2 : ((q.num.natAbs : Nat) : ℚ) = ((q.num.natAbs : Int) : ℚ) :=
        (Int.cast_natCast _).symm
      rw [h2, h1, neg_div, Rat.num_div_den]
    have h := f64roundPos_error q.num.natAbs q.den hn hden
    rw [hq] at h
    rw [abs_of_neg hneg]
    have e : -f64roundPos q.num.natAbs q.den - q = -(f64roundPos q.num.natAbs q.den - -q) := by
      ring
    rw [e, abs_neg]
    exact h
  · have hpos : 0 < q := lt_of_le_of_ne (not_lt.1 hneg) (Ne.symm h0)
    have hnum : 0 < q.num := Rat.num_pos.2 hpos
    have hn : 1 ≤ q.num.natAbs := by omega
    have hq : (q.num.natAbs : ℚ) / q.den = q := by
      have h1 : ((q.num.natAbs : Int) : ℚ) = (q.num : ℚ) := by
        congr 1; omega
      have h2 : ((q.num.natAbs : Nat) : ℚ) = ((q.num.natAbs : Int) : ℚ) :=
        (Int.cast_natCast _).symm
      rw [h2, h1, Rat.num_div_den]
    have h := f64roundPos_error q.num.natAbs q.den hn hden
    rw [hq] at h
    rw [abs_of_pos hpos]
    exact h

/-- Rounding a non-negative rational keeps it within the factors `1 - eps` and `1 + eps`. -/
theorem f64round_bounds (q : ℚ) (hq : 0 ≤ q) :
    q * (1 - f64eps) ≤ f64round q ∧ f64round q ≤ q * (1 + f64eps) := by
  have h := f64round_error q
  rw [abs_of_nonneg hq, abs_le] at h
  constructor <;> linarith [h.1, h.2]

/-- Rounding keeps a non-negative rational non-negative. -/
theorem f64round_nonneg (q : ℚ) (hq : 0 ≤ q) : 0 ≤ f64round q := by
  have h := (f64round_bounds q hq).1
  have : 0 ≤ q * (1 - f64eps) := mul_nonneg hq (by unfold f64eps; norm_num)
  linarith

/-- Rounding keeps a positive rational positive. -/
theorem f64round_pos (q : ℚ) (hq : 0 < q) : 0 < f64round q := by
  have h := (f64round_bounds q hq.le).1
  have : 0 < q * (1 - f64eps) := mul_pos hq (by unfold f64eps; norm_num)
  linarith

/-- Rounding yields the integer quotient or its successor. -/
theorem roundHalfEven_cases (a b : Nat) :
    roundHalfEven a b = a / b ∨ roundHalfEven a b = a / b + 1 := by
  unfold roundHalfEven
  simp only []
  split_ifs <;> simp

/-- The rounded significand has 53 bits (or is the next power of two): the result of
`f64roundPos` is a binary64 number. -/
theorem f64roundPos_mantissa (n d : Nat) (hn : 1 ≤ n) (hd : 1 ≤ d) :
    2 ^ 52 ≤ roundHalfEven (n * 2 ^ (-(f64exponent n d - 52)).toNat)
        (d * 2 ^ (f64exponent n d - 52).toNat) ∧
      roundHalfEven (n * 2 ^ (-(f64exponent n d - 52)).toNat)
        (d * 2 ^ (f64exponent n d - 52).toNat) ≤ 2 ^ 53 := by
  have hd0 : (0 : ℚ) < d := by exact_mod_cast hd
  have hle := f64exponent_le n d hn hd
  have hlt := f64exponent_lt n d hn hd
  generalize f64exponent n d = e at hle hlt ⊢
  set s : Int := e - 52 with hs
  have hb : 0 < d * 2 ^ s.toNat := Nat.mul_pos hd (by positivity)
  have hbq : (0 : ℚ) < ((d * 2 ^ s.toNat : Nat) : ℚ) := by exact_mod_cast hb
  have hpos : (0 : ℚ) < 2 ^ s := by positivity
  have hquot : ((n * 2 ^ (-s).toNat : Nat) : ℚ) / ((d * 2 ^ s.toNat : Nat) : ℚ) =
      (n : ℚ) / d / 2 ^ s := by
    rw [two_zpow_eq s]
    push_cast
    field_simp
  have he : (2 : ℚ) ^ e = 2 ^ 52 * 2 ^ s := by
    rw [hs, zpow_sub₀ (by norm_num)]
    norm_num
    ring
  have he1 : (2 : ℚ) ^ (e + 1) = 2 ^ 53 * 2 ^ s := by
    rw [zpow_add₀ (by norm_num), he]
    norm_num
    ring
  have h1 : (2 : ℚ) ^ 52 ≤ ((n * 2 ^ (-s).toNat : Nat) : ℚ) / ((d * 2 ^ s.toNat : Nat) : ℚ) := by
    rw [hquot, le_div_iff₀ hpos, ← he]
    exact hle
  have h2 : ((n * 2 ^ (-s).toNat : Nat) : ℚ) / ((d * 2 ^ s.toNat : Nat) : ℚ) < 2 ^ 53 := by
    rw [hquot, div_lt_iff₀ hpos, ← he1]
    exact hlt
  rw [le_div_iff₀ hbq] at h1
  rw [div_lt_iff₀ hbq] at h2
  have h1n : 2 ^ 52 * (d * 2 ^ s.toNat) ≤ n * 2 ^ (-s).toNat := by exact_mod_cast h1
  have h2n : n * 2 ^ (-s).toNat < 2 ^ 53 * (d * 2 ^ s.toNat) := by exact_mod_cast h2
  have hq1 : 2 ^ 52 ≤ n * 2 ^ (-s).toNat / (d * 2 ^ s.toNat) :=
    (Nat.le_div_iff_mul_le hb).2 h1n
  have hq2 : n * 2 ^ (-s).toNat / (d * 2 ^ s.toNat) < 2 ^ 53 :=
    (Nat.div_lt_iff_lt_mul hb).2 h2n
  rcases roundHalfEven_cases (n * 2 ^ (-s).toNat) (d * 2 ^ s.toNat) with h | h <;> rw [h] <;>
    constructor <;> omega

/-! ## The transcription of Go's `sort.Slice` meets the contract -/

section PdqProof

variable {α : Type} {f : α → α → Bool} {d : α}

/-- No element is less than itself. -/
theorem LessOK.irrefl (h : LessOK f) (x : α) : f x x = false := by
  cases hx : f x x
  · rfl
  · have := h.asymm x x hx
    rw [hx] at this
    exact absurd this (by decide)

/-- Less-than gives not-greater-than. -/
theorem LessOK.le_of_lt (h : LessOK f) {x y : α} (hxy : f x y = true) : f y x = false :=
  h.asymm x y hxy

/-- Not-greater-than is transitive. -/
theorem LessOK.le_trans (h : LessOK f) {x y z : α} (h1 : f y x = false)
    (h2 : f z y = false) : f z x = false :=
  h.incomp z y x h2 h1

/-- Of two elements one is not greater than the other. -/
theorem LessOK.le_total (h : LessOK f) (x y : α) : f y x = false ∨ f x y = false := by
  cases hxy : f x y
  · exact Or.inr rfl
  · exact Or.inl (h.asymm x y hxy)

/-- Less-than followed by not-greater-than is less-than. -/
theorem LessOK.lt_of_lt_of_le (h : LessOK f) {x y z : α} (h1 : f x y = true)
    (h2 : f z y = false) : f x z = true := by
  cases hxz : f x z
  · have := h.incomp x z y hxz h2
    rw [h1] at this
    exact absurd this (by decide)
  · rfl

/-- Not-greater-than followed by less-than is less-than. -/
theorem LessOK.lt_of_le_of_lt (h : LessOK f) {x y z : α} (h1 : f y x = false)
    (h2 : f y z = true) : f x z = true := by
  cases hxz : f x z
  · have := h.incomp y x z h1 hxz
    rw [h2] at this
    exact absurd this (by decide)
  · rfl

/-- A swap keeps the length. -/
theorem swapAt_length (xs : List α) (i j : Nat) : (swapAt xs i j).length = xs.length := by
  unfold swapAt
  split <;> simp

/-- The element a swap leaves at each position. -/
theorem swapAt_getD (xs : List α) {i j : Nat} (hi : i < xs.length) (hj : j < xs.length)
    (k : Nat) :
    (swapAt xs i j).getD k d =
      if k = j then xs.getD i d else if k = i then xs.getD j d else xs.getD k d := by
  unfold swapAt
  rw [List.getElem?_eq_getElem hi, List.getElem?_eq_getElem hj]
  simp only [List.getD_eq_getElem?_getD, List.getElem?_set, List.length_set]
  by_cases hkj : k = j
  · subst hkj
    simp [hj, List.getElem?_eq_getElem hi]
  · by_cases hki : k = i
    · subst hki
      have : ¬ j = k := fun h => hkj h.symm
      simp [this, hkj, hi, List.getElem?_eq_getElem hj]
    · have h1 : ¬ j = k := fun h => hkj h.symm
      have h2 : ¬ i = k := fun h => hki h.symm
      simp [h1, h2, hkj, hki]

/-- Putting the old element of a position in front of the overwritten list rearranges
the list with the new element in front. -/
theorem cons_set_perm : ∀ (t : List α) (j : Nat) (h : α) (hj : j < t.length),
    (t[j] :: t.set j h).Perm (h :: t)
  | x :: t, 0, h, _ => List.Perm.swap _ _ _
  | x :: t, j + 1, h, hj => by
    have ih := cons_set_perm t j h (by simpa using hj)
    simp only [List.getElem_cons_succ, List.set_cons_succ]
    exact (List.Perm.swap _ _ _).trans (((List.Perm.cons x ih)).trans (List.Perm.swap _ _ _))

/-- Writing two elements into each other's positions rearranges the list. -/
theorem set_set_perm : ∀ (xs : List α) (i j : Nat) (hi : i < xs.length) (hj : j < xs.length),
    ((xs.set i xs[j]).set j xs[i]).Perm xs
  | x :: t, 0, 0, _, _ => by simp
  | x :: t, 0, j + 1, _, hj => by
    simpa using cons_set_perm t j x (by simpa using hj)
  | x :: t, i + 1, 0, hi, _ => by
    simpa using cons_set_perm t i x (by simpa using hi)
  | x :: t, i + 1, j + 1, hi, hj => by
    simpa using set_set_perm t i j (by simpa using hi) (by simpa using hj)

/-- A swap rearranges the slice. -/
theorem swapAt_perm (xs : List α) (i j : Nat) : (swapAt xs i j).Perm xs := by
  unfold swapAt
  by_cases hi : i < xs.length
  · by_cases hj : j < xs.length
    · rw [List.getElem?_eq_getElem hi, List.getElem?_eq_getElem hj]
      exact set_set_perm xs i j hi hj
    · rw [List.getElem?_eq_none (by omega : xs.length ≤ j)]
      split <;> first | exact List.Perm.refl _ | simp_all
  · rw [List.getElem?_eq_none (by omega : xs.length ≤ i)]

/-- The comparison at two positions of the slice. -/
theorem lessAt_eq (xs : List α) {i j : Nat} (hi : i < xs.length) (hj : j < xs.length) :
    lessAt f xs i j = f (xs.getD i d) (xs.getD j d) := by
  unfold lessAt
  rw [List.getElem?_eq_getElem hi, List.getElem?_eq_getElem hj]
  simp [List.getD_eq_getElem?_getD, List.getElem?_eq_getElem hi, List.getElem?_eq_getElem hj]

/-- Leaving the slice as it is rearranges nothing. -/
theorem Within.refl (a b : Nat) (xs : List α) : Within d a b xs xs :=
  ⟨rfl, List.Perm.refl _, fun _ _ => rfl, fun k h1 h2 => ⟨k, h1, h2, rfl⟩⟩

/-- Rearrangements inside a range compose. -/
theorem Within.trans {a b : Nat} {xs ys zs : List α} (h1 : Within d a b xs ys)
    (h2 : Within d a b ys zs) : Within d a b xs zs := by
  obtain ⟨l1, p1, o1, i1⟩ := h1
  obtain ⟨l2, p2, o2, i2⟩ := h2
  refine ⟨l2.trans l1, p2.trans p1, fun k hk => (o2 k hk).trans (o1 k hk), ?_⟩
  intro k hk1 hk2
  obtain ⟨m, hm1, hm2, hm⟩ := i2 k hk1 hk2
  obtain ⟨n, hn1, hn2, hn⟩ := i1 m hm1 hm2
  exact ⟨n, hn1, hn2, hm.trans hn⟩

/-- A rearrangement inside a range is one inside every larger range. -/
theorem Within.mono {a b a2 b2 : Nat} {xs ys : List α} (h : Within d a2 b2 xs ys)
    (ha : a ≤ a2) (hb : b2 ≤ b) : Within d a b xs ys := by
  obtain ⟨l1, p1, o1, i1⟩ := h
  refine ⟨l1, p1, fun k hk => o1 k (by omega), ?_⟩
  intro k hk1 hk2
  by_cases hin : a2 ≤ k ∧ k < b2
  · obtain ⟨m, hm1, hm2, hm⟩ := i1 k hin.1 hin.2
    exact ⟨m, by omega, by omega, hm⟩
  · exact ⟨k, hk1, hk2, o1 k (by omega)⟩

/-- A swap of two positions of a range rearranges inside the range. -/
theorem Within.swap {a b i j : Nat} (xs : List α) (hai : a ≤ i) (hib : i < b) (haj : a ≤ j)
    (hjb : j < b) (hb : b ≤ xs.length) : Within d a b xs (swapAt xs i j) := by
  have hi : i < xs.length := by omega
  have hj : j < xs.length := by omega
  refine ⟨swapAt_length xs i j, swapAt_perm xs i j, ?_, ?_⟩
  · intro k hk
    rw [swapAt_getD xs hi hj]
    have h1 : k ≠ j := by omega
    have h2 : k ≠ i := by omega
    simp [h1, h2]
  · intro k hk1 hk2
    rw [swapAt_getD xs hi hj]
    by_cases h1 : k = j
    · exact ⟨i, hai, hib, by simp [h1]⟩
    · by_cases h2 : k = i
      · subst h2
        exact ⟨j, haj, hjb, by simp [h1]⟩
      · exact ⟨k, hk1, hk2, by simp [h1, h2]⟩

/-- The inner loop of insertion sort puts the element at `j` into its place among the
ordered positions `a .. i`. -/
theorem insertionSortInner_spec (hlt : LessOK f) (a i : Nat) :
    ∀ (j : Nat) (xs : List α), a ≤ j → j ≤ i → i < xs.length →
      (∀ p q, a ≤ p → p < q → q ≤ i → p ≠ j → q ≠ j →
        f (xs.getD q d) (xs.getD p d) = false) →
      (∀ q, j < q → q ≤ i → f (xs.getD j d) (xs.getD q d) = true) →
      Within d a (i + 1) xs (insertionSortInner f a j xs) ∧
        SortedRange f d a (i + 1) (insertionSortInner f a j xs)
  | 0, xs, ha, _, _, h1, h2 => by
    unfold insertionSortInner
    refine ⟨Within.refl _ _ _, ?_⟩
    intro p q hp hpq hq
    by_cases hp0 : p = 0
    · subst hp0
      exact hlt.le_of_lt (h2 q hpq (by omega))
    · exact h1 p q hp hpq (by omega) hp0 (by omega)
  | j + 1, xs, ha, hji, hi, h1, h2 => by
    unfold insertionSortInner
    have hj1 : j + 1 < xs.length := by omega
    have hj : j < xs.length := by omega
    by_cases hc : (decide (j + 1 > a) && lessAt f xs (j + 1) j) = true
    · rw [if_pos hc]
      simp only [Bool.and_eq_true, decide_eq_true_eq] at hc
      obtain ⟨hja, hless⟩ := hc
      rw [lessAt_eq (d := d) xs hj1 hj] at hless
      have hsw : ∀ k, (swapAt xs (j + 1) j).getD k d =
          if k = j then xs.getD (j + 1) d else if k = j + 1 then xs.getD j d else xs.getD k d :=
        swapAt_getD xs hj1 hj
      have ih := insertionSortInner_spec hlt a i j (swapAt xs (j + 1) j) (by omega) (by omega)
        (by rw [swapAt_length]; exact hi)
        (by
          intro p q hp hpq hq hpj hqj
          rw [hsw p, hsw q]
          simp only [hpj, hqj, if_false]
          by_cases hq1 : q = j + 1
          · have hp1 : p ≠ j + 1 := by omega
            simp only [hq1, hp1, if_true, if_false]
            exact h1 p j hp (by omega) (by omega) hp1 (by omega)
          · by_cases hp1 : p = j + 1
            · simp only [hq1, hp1, if_true, if_false]
              exact h1 j q (by omega) (by omega) hq (by omega) hq1
            · simp only [hq1, hp1, if_false]
              exact h1 p q hp hpq hq hp1 hq1)
        (by
          intro q hjq hq
          rw [hsw j, hsw q]
          have hqj : q ≠ j := by omega
          simp only [hqj, if_true, if_false]
          by_cases hq1 : q = j + 1
          · simp only [hq1, if_true]
            exact hless
          · simp only [hq1, if_false]
            exact h2 q (by omega) hq)
      exact ⟨(Within.swap xs (by omega) (by omega) (by omega) (by omega) (by omega)).trans ih.1,
        ih.2⟩
    · rw [if_neg hc]
      refine ⟨Within.refl _ _ _, ?_⟩
      intro p q hp hpq hq
      by_cases hpJ : p = j + 1
      · subst hpJ
        exact hlt.le_of_lt (h2 q hpq (by omega))
      · by_cases hqJ : q = j + 1
        · subst hqJ
          simp only [Bool.and_eq_true, decide_eq_true_eq, not_and, Bool.not_eq_true] at hc
          have hstop := hc (by omega)
          rw [lessAt_eq (d := d) xs hj1 hj] at hstop
          by_cases hpj : p = j
          · subst hpj; exact hstop
          · exact hlt.le_trans (h1 p j hp (by omega) (by omega) hpJ (by omega)) hstop
        · exact h1 p q hp hpq (by omega) hpJ hqJ

/-- The outer loop of insertion sort, from position `s` on. -/
theorem insertionSort_fold_spec (hlt : LessOK f) (a : Nat) :
    ∀ (n s : Nat) (xs : List α), a < s → s + n ≤ xs.length → SortedRange f d a s xs →
      Within d a (s + n) xs
          ((List.range' s n).foldl (fun ys i => insertionSortInner f a i ys) xs) ∧
        SortedRange f d a (s + n)
          ((List.range' s n).foldl (fun ys i => insertionSortInner f a i ys) xs)
  | 0, s, xs, _, _, hs => by
    simp only [List.range'_zero, List.foldl_nil, Nat.add_zero]
    exact ⟨Within.refl _ _ _, hs⟩
  | n + 1, s, xs, has, hlen, hs => by
    simp only [List.range'_succ, List.foldl_cons]
    have h1 := insertionSortInner_spec (d := d) hlt a s s xs (by omega) (le_refl s) (by omega)
      (by
        intro p q hp hpq hq _ hqs
        exact hs p q hp hpq (by omega))
      (by intro q hq1 hq2; omega)
    have h2 := insertionSort_fold_spec hlt a n (s + 1) (insertionSortInner f a s xs) (by omega)
      (by rw [h1.1.1]; omega) h1.2
    have e : s + 1 + n = s + (n + 1) := by omega
    rw [e] at h2
    exact ⟨(h1.1.mono (le_refl a) (by omega)).trans h2.1, h2.2⟩

/-- Insertion sort rearranges the range `a ≤ k < b` and leaves it in order. -/
theorem insertionSort_func_spec (hlt : LessOK f) (xs : List α) (a b : Nat)
    (hb : b ≤ xs.length) :
    Within d a b xs (insertionSort_func f xs a b) ∧
      SortedRange f d a b (insertionSort_func f xs a b) := by
  unfold insertionSort_func
  by_cases hab : a + 1 ≤ b
  · have h := insertionSort_fold_spec (d := d) hlt a (b - (a + 1)) (a + 1) xs (by omega)
      (by omega) (by intro i j hi hij hj; omega)
    have e : a + 1 + (b - (a + 1)) = b := by omega
    rw [e] at h
    exact h
  · have e : b - (a + 1) = 0 := by omega
    rw [e]
    simp only [List.range'_zero, List.foldl_nil]
    exact ⟨Within.refl _ _ _, by intro i j hi hij hj; omega⟩

/-- The upward scan of `partition_func` stops at the first position not less than the
pivot, having passed only positions less than it. -/
theorem scanLess_spec (xs : List α) (a j : Nat) (ha : a < xs.length) (hj : j < xs.length) :
    ∀ (fuel i : Nat), i ≤ j + 1 → j + 1 - i ≤ fuel →
      i ≤ scanLess f xs a j fuel i ∧ scanLess f xs a j fuel i ≤ j + 1 ∧
      (∀ k, i ≤ k → k < scanLess f xs a j fuel i → f (xs.getD k d) (xs.getD a d) = true) ∧
      (scanLess f xs a j fuel i ≤ j →
        f (xs.getD (scanLess f xs a j fuel i) d) (xs.getD a d) = false)
  | 0, i, h1, h2 => by
    unfold scanLess
    exact ⟨le_refl i, h1, fun k hk1 hk2 => by omega, fun h => by omega⟩
  | fuel + 1, i, h1, h2 => by
    unfold scanLess
    by_cases hc : (decide (i ≤ j) && lessAt f xs i a) = true
    · rw [if_pos hc]
      simp only [Bool.and_eq_true, decide_eq_true_eq] at hc
      obtain ⟨hij, hless⟩ := hc
      rw [lessAt_eq (d := d) xs (by omega) ha] at hless
      obtain ⟨r1, r2, r3, r4⟩ := scanLess_spec xs a j ha hj fuel (i + 1) (by omega) (by omega)
      refine ⟨by omega, r2, ?_, r4⟩
      intro k hk1 hk2
      by_cases hki : k = i
      · subst hki; exact hless
      · exact r3 k (by omega) hk2
    · rw [if_neg hc]
      refine ⟨le_refl i, h1, fun k hk1 hk2 => by omega, ?_⟩
      intro hij
      simp only [Bool.and_eq_true, decide_eq_true_eq, not_and, Bool.not_eq_true] at hc
      have := hc hij
      rw [lessAt_eq (d := d) xs (by omega) ha] at this
      exact this

/-- The downward scan of `partition_func` stops at the first position less than the
pivot, having passed only positions not less than it. -/
theorem scanNotLess_spec (xs : List α) (a i : Nat) (ha : a < xs.length) (hi : 1 ≤ i) :
    ∀ (fuel j : Nat), j < xs.length → i ≤ j + 1 → j + 1 - i ≤ fuel →
      scanNotLess f xs a i fuel j ≤ j ∧ i ≤ scanNotLess f xs a i fuel j + 1 ∧
      (∀ k, scanNotLess f xs a i fuel j < k → k ≤ j →
        f (xs.getD k d) (xs.getD a d) = false) ∧
      (i ≤ scanNotLess f xs a i fuel j →
        f (xs.getD (scanNotLess f xs a i fuel j) d) (xs.getD a d) = true)
  | 0, j, hj, h1, h2 => by
    unfold scanNotLess
    exact ⟨le_refl j, h1, fun k hk1 hk2 => by omega, fun h => by omega⟩
  | fuel + 1, j, hj, h1, h2 => by
    unfold scanNotLess
    by_cases hc : (decide (i ≤ j) && !lessAt f xs j a) = true
    · rw [if_pos hc]
      simp only [Bool.and_eq_true, decide_eq_true_eq, Bool.not_eq_true'] at hc
      obtain ⟨hij, hless⟩ := hc
      rw [lessAt_eq (d := d) xs hj ha] at hless
      obtain ⟨r1, r2, r3, r4⟩ :=
        scanNotLess_spec xs a i ha hi fuel (j - 1) (by omega) (by omega) (by omega)
      refine ⟨by omega, r2, ?_, r4⟩
      intro k hk1 hk2
      by_cases hkj : k = j
      · subst hkj; exact hless
      · exact r3 k hk1 (by omega)
    · rw [if_neg hc]
      refine ⟨le_refl j, h1, fun k hk1 hk2 => by omega, ?_⟩
      intro hij
      simp only [Bool.and_eq_true, decide_eq_true_eq, Bool.not_eq_true', not_and,
        Bool.not_eq_false] at hc
      have := hc hij
      rw [lessAt_eq (d := d) xs hj ha] at this
      exact this

/-- The closing loop of `partition_func`: on return the positions after the pivot slot up
to `j` are less than the pivot and the positions behind `j` are not. -/
theorem partitionLoop_spec (a b : Nat) :
    ∀ (fuel : Nat) (xs : List α) (i j : Nat), b ≤ xs.length → a + 1 ≤ i → i ≤ j + 1 → j < b →
      j + 1 - i ≤ fuel →
      (∀ k, a + 1 ≤ k → k < i → f (xs.getD k d) (xs.getD a d) = true) →
      (∀ k, j < k → k < b → f (xs.getD k d) (xs.getD a d) = false) →
      Within d (a + 1) b xs (partitionLoop f a fuel xs i j).1 ∧
        a ≤ (partitionLoop f a fuel xs i j).2 ∧ (partitionLoop f a fuel xs i j).2 < b ∧
        (∀ k, a + 1 ≤ k → k ≤ (partitionLoop f a fuel xs i j).2 →
          f ((partitionLoop f a fuel xs i j).1.getD k d) (xs.getD a d) = true) ∧
        (∀ k, (partitionLoop f a fuel xs i j).2 < k → k < b →
          f ((partitionLoop f a fuel xs i j).1.getD k d) (xs.getD a d) = false)
  | 0, xs, i, j, hb, hi, hij, hj, hf, hA, hB => by
    unfold partitionLoop
    have e : i = j + 1 := by omega
    exact ⟨Within.refl _ _ _, by omega, hj, fun k hk1 hk2 => hA k hk1 (by omega), hB⟩
  | fuel + 1, xs, i, j, hb, hi, hij, hj, hf, hA, hB => by
    unfold partitionLoop
    simp only []
    obtain ⟨s1, s2, s3, s4⟩ := scanLess_spec (f := f) (d := d) xs a j (by omega) (by omega)
      xs.length i hij (by omega)
    generalize scanLess f xs a j xs.length i = i1 at s1 s2 s3 s4 ⊢
    obtain ⟨t1, t2, t3, t4⟩ := scanNotLess_spec (f := f) (d := d) xs a i1 (by omega)
      (by omega) xs.length j (by omega) s2 (by omega)
    generalize scanNotLess f xs a i1 xs.length j = j1 at t1 t2 t3 t4 ⊢
    by_cases hc : i1 > j1
    · rw [if_pos hc]
      refine ⟨Within.refl _ _ _, by omega, by omega, ?_, ?_⟩
      · intro k hk1 hk2
        by_cases hki : k < i
        · exact hA k hk1 hki
        · exact s3 k (by omega) (by omega)
      · intro k hk1 hk2
        by_cases hkj : j < k
        · exact hB k hkj hk2
        · exact t3 k hk1 (by omega)
    · rw [if_neg hc]
      have h4 := s4 (by omega)
      have h5 := t4 (by omega)
      have hne : i1 ≠ j1 := by
        intro e
        rw [e] at h4
        rw [h4] at h5
        exact absurd h5 (by decide)
      have hsw : ∀ k, (swapAt xs i1 j1).getD k d =
          if k = j1 then xs.getD i1 d else if k = i1 then xs.getD j1 d else xs.getD k d :=
        swapAt_getD xs (by omega) (by omega)
      have hpa : (swapAt xs i1 j1).getD a d = xs.getD a d := by
        rw [hsw a]
        have h1 : a ≠ j1 := by omega
        have h2 : a ≠ i1 := by omega
        simp [h1, h2]
      have ih := partitionLoop_spec a b fuel (swapAt xs i1 j1) (i1 + 1) (j1 - 1)
        (by rw [swapAt_length]; exact hb) (by omega) (by omega) (by omega) (by omega)
        (by
          intro k hk1 hk2
          rw [hpa, hsw k]
          have h1 : k ≠ j1 := by omega
          simp only [h1, if_false]
          by_cases hki1 : k = i1
          · simp only [hki1, if_true]; exact h5
          · simp only [hki1, if_false]
            by_cases hki : k < i
            · exact hA k hk1 hki
            · exact s3 k (by omega) (by omega))
        (by
          intro k hk1 hk2
          rw [hpa, hsw k]
          by_cases hkj1 : k = j1
          · simp only [hkj1, if_true]; exact h4
          · have h2 : k ≠ i1 := by omega
            simp only [hkj1, h2, if_false]
            by_cases hkj : j < k
            · exact hB k hkj hk2
            · exact t3 k (by omega) (by omega))
      rw [hpa] at ih
      exact ⟨(Within.swap xs (by omega) (by omega) (by omega) (by omega) hb).trans ih.1,
        ih.2.1, ih.2.2.1, ih.2.2.2.1, ih.2.2.2.2⟩

/-- The last step of `partition_func`: the pivot goes from the front slot to position `j`. -/
theorem partition_finish (a b j : Nat) (xs : List α) (hb : b ≤ xs.length) (haj : a ≤ j)
    (hjb : j < b)
    (hA : ∀ k, a + 1 ≤ k → k ≤ j → f (xs.getD k d) (xs.getD a d) = true)
    (hB : ∀ k, j < k → k < b → f (xs.getD k d) (xs.getD a d) = false) :
    Within d a b xs (swapAt xs j a) ∧ (swapAt xs j a).getD j d = xs.getD a d ∧
      (∀ k, a ≤ k → k < j → f ((swapAt xs j a).getD k d) (xs.getD a d) = true) ∧
      (∀ k, j < k → k < b → f ((swapAt xs j a).getD k d) (xs.getD a d) = false) := by
  have hsw : ∀ k, (swapAt xs j a).getD k d =
      if k = a then xs.getD j d else if k = j then xs.getD a d else xs.getD k d :=
    swapAt_getD xs (by omega) (by omega)
  refine ⟨Within.swap xs haj hjb (le_refl a) (by omega) hb, ?_, ?_, ?_⟩
  · rw [hsw j]
    by_cases hja : j = a
    · simp [hja]
    · simp [hja]
  · intro k hk1 hk2
    rw [hsw k]
    by_cases hka : k = a
    · simp only [hka, if_true]
      exact hA j (by omega) (le_refl j)
    · have : k ≠ j := by omega
      simp only [hka, this, if_false]
      exact hA k (by omega) (by omega)
  · intro k hk1 hk2
    rw [hsw k]
    have h1 : k ≠ a := by omega
    have h2 : k ≠ j := by omega
    simp only [h1, h2, if_false]
    exact hB k hk1 hk2

/-- `partition_func` rearranges the range around the pivot: the pivot ends at the returned
position, everything before it in the range is less, nothing behind it is. -/
theorem partition_func_spec (xs : List α) (a b pivot : Nat) (hb : b ≤ xs.length)
    (hap : a ≤ pivot) (hpb : pivot < b) :
    Within d a b xs (partition_func f xs a b pivot).1 ∧
      a ≤ (partition_func f xs a b pivot).2.1 ∧ (partition_func f xs a b pivot).2.1 < b ∧
      (partition_func f xs a b pivot).1.getD (partition_func f xs a b pivot).2.1 d =
        xs.getD pivot d ∧
      (∀ k, a ≤ k → k < (partition_func f xs a b pivot).2.1 →
        f ((partition_func f xs a b pivot).1.getD k d) (xs.getD pivot d) = true) ∧
      (∀ k, (partition_func f xs a b pivot).2.1 < k → k < b →
        f ((partition_func f xs a b pivot).1.getD k d) (xs.getD pivot d) = false) := by
  unfold partition_func
  simp only []
  have hw0 : Within d a b xs (swapAt xs a pivot) :=
    Within.swap xs (le_refl a) (by omega) hap hpb hb
  have hp : (swapAt xs a pivot).getD a d = xs.getD pivot d := by
    rw [swapAt_getD xs (by omega) (by omega)]
    by_cases h : a = pivot
    · simp [h]
    · simp [h]
  have hlen : (swapAt xs a pivot).length = xs.length := swapAt_length _ _ _
  generalize swapAt xs a pivot = ys at hw0 hp hlen ⊢
  obtain ⟨s1, s2, s3, s4⟩ := scanLess_spec (f := f) (d := d) ys a (b - 1) (by omega)
    (by omega) ys.length (a + 1) (by omega) (by omega)
  generalize scanLess f ys a (b - 1) ys.length (a + 1) = i1 at s1 s2 s3 s4 ⊢
  obtain ⟨t1, t2, t3, t4⟩ := scanNotLess_spec (f := f) (d := d) ys a i1 (by omega)
    (by omega) ys.length (b - 1) (by omega) s2 (by omega)
  generalize scanNotLess f ys a i1 ys.length (b - 1) = j1 at t1 t2 t3 t4 ⊢
  by_cases hc : i1 > j1
  · rw [if_pos hc]
    simp only []
    obtain ⟨f1, f2, f3, f4⟩ := partition_finish (f := f) (d := d) a b j1 ys (by omega)
      (by omega) (by omega)
      (fun k hk1 hk2 => s3 k hk1 (by omega)) (fun k hk1 hk2 => t3 k hk1 (by omega))
    rw [hp] at f2 f3 f4
    exact ⟨hw0.trans f1, by omega, by omega, f2, f3, f4⟩
  · rw [if_neg hc]
    have h4 := s4 (by omega)
    have h5 := t4 (by omega)
    have hne : i1 ≠ j1 := by
      intro e
      rw [e] at h4
      rw [h4] at h5
      exact absurd h5 (by decide)
    have hsw : ∀ k, (swapAt ys i1 j1).getD k d =
        if k = j1 then ys.getD i1 d else if k = i1 then ys.getD j1 d else ys.getD k d :=
      swapAt_getD ys (by omega) (by omega)
    have hpa : (swapAt ys i1 j1).getD a d = ys.getD a d := by
      rw [hsw a]
      have h1 : a ≠ j1 := by omega
      have h2 : a ≠ i1 := by omega
      simp [h1, h2]
    have hw1 : Within d a b ys (swapAt ys i1 j1) :=
      Within.swap ys (by omega) (by omega) (by omega) (by omega) (by omega)
    have hlen1 : (swapAt ys i1 j1).length = ys.length := swapAt_length _ _ _
    obtain ⟨l1, l2, l3, l4, l5⟩ := partitionLoop_spec (f := f) (d := d) a b
      (swapAt ys i1 j1).length (swapAt ys i1 j1) (i1 + 1) (j1 - 1)
      (by omega) (by omega) (by omega) (by omega) (by omega)
      (by
        intro k hk1 hk2
        rw [hpa, hsw k]
        have h1 : k ≠ j1 := by omega
        simp only [h1, if_false]
        by_cases hki1 : k = i1
        · simp only [hki1, if_true]; exact h5
        · simp only [hki1, if_false]
          exact s3 k (by omega) (by omega))
      (by
        intro k hk1 hk2
        rw [hpa, hsw k]
        by_cases hkj1 : k = j1
        · simp only [hkj1, if_true]; exact h4
        · have h2 : k ≠ i1 := by omega
          simp only [hkj1, h2, if_false]
          exact t3 k (by omega) (by omega))
    rw [hpa] at l4 l5
    generalize swapAt ys i1 j1 = zs at hpa hw1 hlen1 l1 l2 l3 l4 l5 ⊢
    generalize partitionLoop f a zs.length zs (i1 + 1) (j1 - 1) = res at l1 l2 l3 l4 l5 ⊢
    obtain ⟨ws, j2⟩ := res
    simp only [] at l1 l2 l3 l4 l5 ⊢
    have hwa : ws.getD a d = ys.getD a d := by
      rw [l1.2.2.1 a (Or.inl (by omega)), hpa]
    have hwlen : ws.length = xs.length := by rw [l1.1, hlen1, hlen]
    obtain ⟨f1, f2, f3, f4⟩ := partition_finish (f := f) (d := d) a b j2 ws (by omega)
      l2 l3 (fun k hk1 hk2 => by rw [hwa]; exact l4 k hk1 hk2)
      (fun k hk1 hk2 => by rw [hwa]; exact l5 k hk1 hk2)
    rw [hwa, hp] at f2 f3 f4
    exact ⟨hw0.trans (hw1.trans ((l1.mono (by omega) (le_refl b)).trans f1)), l2, l3, f2, f3, f4⟩

/-- The upward scan of `partitionEqual_func` stops at the first position greater than the
pivot, having passed only positions not greater than it. -/
theorem scanNotGreater_spec (xs : List α) (a j : Nat) (ha : a < xs.length)
    (hj : j < xs.length) :
    ∀ (fuel i : Nat), i ≤ j + 1 → j + 1 - i ≤ fuel →
      i ≤ scanNotGreater f xs a j fuel i ∧ scanNotGreater f xs a j fuel i ≤ j + 1 ∧
      (∀ k, i ≤ k → k < scanNotGreater f xs a j fuel i →
        f (xs.getD a d) (xs.getD k d) = false) ∧
      (scanNotGreater f xs a j fuel i ≤ j →
        f (xs.getD a d) (xs.getD (scanNotGreater f xs a j fuel i) d) = true)
  | 0, i, h1, h2 => by
    unfold scanNotGreater
    exact ⟨le_refl i, h1, fun k hk1 hk2 => by omega, fun h => by omega⟩
  | fuel + 1, i, h1, h2 => by
    unfold scanNotGreater
    by_cases hc : (decide (i ≤ j) && !lessAt f xs a i) = true
    · rw [if_pos hc]
      simp only [Bool.and_eq_true, decide_eq_true_eq, Bool.not_eq_true'] at hc
      obtain ⟨hij, hless⟩ := hc
      rw [lessAt_eq (d := d) xs ha (by omega)] at hless
      obtain ⟨r1, r2, r3, r4⟩ :=
        scanNotGreater_spec xs a j ha hj fuel (i + 1) (by omega) (by omega)
      refine ⟨by omega, r2, ?_, r4⟩
      intro k hk1 hk2
      by_cases hki : k = i
      · subst hki; exact hless
      · exact r3 k (by omega) hk2
    · rw [if_neg hc]
      refine ⟨le_refl i, h1, fun k hk1 hk2 => by omega, ?_⟩
      intro hij
      simp only [Bool.and_eq_true, decide_eq_true_eq, Bool.not_eq_true', not_and,
        Bool.not_eq_false] at hc
      have := hc hij
      rw [lessAt_eq (d := d) xs ha (by omega)] at this
      exact this

/-- The downward scan of `partitionEqual_func` stops at the first position not greater
than the pivot, having passed only positions greater than it. -/
theorem scanGreater_spec (xs : List α) (a i : Nat) (ha : a < xs.length) (hi : 1 ≤ i) :
    ∀ (fuel j : Nat), j < xs.length → i ≤ j + 1 → j + 1 - i ≤ fuel →
      scanGreater f xs a i fuel j ≤ j ∧ i ≤ scanGreater f xs a i fuel j + 1 ∧
      (∀ k, scanGreater f xs a i fuel j < k → k ≤ j →
        f (xs.getD a d) (xs.getD k d) = true) ∧
      (i ≤ scanGreater f xs a i fuel j →
        f (xs.getD a d) (xs.getD (scanGreater f xs a i fuel j) d) = false)
  | 0, j, hj, h1, h2 => by
    unfold scanGreater
    exact ⟨le_refl j, h1, fun k hk1 hk2 => by omega, fun h => by omega⟩
  | fuel + 1, j, hj, h1, h2 => by
    unfold scanGreater
    by_cases hc : (decide (i ≤ j) && lessAt f xs a j) = true
    · rw [if_pos hc]
      simp only [Bool.and_eq_true, decide_eq_true_eq] at hc
      obtain ⟨hij, hless⟩ := hc
      rw [lessAt_eq (d := d) xs ha hj] at hless
      obtain ⟨r1, r2, r3, r4⟩ :=
        scanGreater_spec xs a i ha hi fuel (j - 1) (by omega) (by omega) (by omega)
      refine ⟨by omega, r2, ?_, r4⟩
      intro k hk1 hk2
      by_cases hkj : k = j
      · subst hkj; exact hless
      · exact r3 k hk1 (by omega)
    · rw [if_neg hc]
      refine ⟨le_refl j, h1, fun k hk1 hk2 => by omega, ?_⟩
      intro hij
      simp only [Bool.and_eq_true, decide_eq_true_eq, not_and, Bool.not_eq_true] at hc
      have := hc hij
      rw [lessAt_eq (d := d) xs ha hj] at this
      exact this

/-- The loop of `partitionEqual_func`: on return the positions after the pivot slot and
before `i` are not greater than the pivot, the positions from `i` on are greater. -/
theorem partitionEqualLoop_spec (a b : Nat) :
    ∀ (fuel : Nat) (xs : List α) (i j : Nat), b ≤ xs.length → a + 1 ≤ i → i ≤ j + 1 → j < b →
      j + 1 - i ≤ fuel →
      (∀ k, a + 1 ≤ k → k < i → f (xs.getD a d) (xs.getD k d) = false) →
      (∀ k, j < k → k < b → f (xs.getD a d) (xs.getD k d) = true) →
      Within d (a + 1) b xs (partitionEqualLoop f a fuel xs i j).1 ∧
        a + 1 ≤ (partitionEqualLoop f a fuel xs i j).2 ∧
        (partitionEqualLoop f a fuel xs i j).2 ≤ b ∧
        (∀ k, a + 1 ≤ k → k < (partitionEqualLoop f a fuel xs i j).2 →
          f (xs.getD a d) ((partitionEqualLoop f a fuel xs i j).1.getD k d) = false) ∧
        (∀ k, (partitionEqualLoop f a fuel xs i j).2 ≤ k → k < b →
          f (xs.getD a d) ((partitionEqualLoop f a fuel xs i j).1.getD k d) = true)
  | 0, xs, i, j, hb, hi, hij, hj, hf, hA, hB => by
    unfold partitionEqualLoop
    exact ⟨Within.refl _ _ _, hi, by omega, hA, fun k hk1 hk2 => hB k (by omega) hk2⟩
  | fuel + 1, xs, i, j, hb, hi, hij, hj, hf, hA, hB => by
    unfold partitionEqualLoop
    simp only []
    obtain ⟨s1, s2, s3, s4⟩ := scanNotGreater_spec (f := f) (d := d) xs a j (by omega)
      (by omega) xs.length i hij (by omega)
    generalize scanNotGreater f xs a j xs.length i = i1 at s1 s2 s3 s4 ⊢
    obtain ⟨t1, t2, t3, t4⟩ := scanGreater_spec (f := f) (d := d) xs a i1 (by omega)
      (by omega) xs.length j (by omega) s2 (by omega)
    generalize scanGreater f xs a i1 xs.length j = j1 at t1 t2 t3 t4 ⊢
    by_cases hc : i1 > j1
    · rw [if_pos hc]
      refine ⟨Within.refl _ _ _, by omega, by omega, ?_, ?_⟩
      · intro k hk1 hk2
        by_cases hki : k < i
        · exact hA k hk1 hki
        · exact s3 k (by omega) (by omega)
      · intro k hk1 hk2
        by_cases hkj : j < k
        · exact hB k hkj hk2
        · exact t3 k (by omega) (by omega)
    · rw [if_neg hc]
      have h4 := s4 (by omega)
      have h5 := t4 (by omega)
      have hne : i1 ≠ j1 := by
        intro e
        rw [e] at h4
        rw [h4] at h5
        exact absurd h5 (by decide)
      have hsw : ∀ k, (swapAt xs i1 j1).getD k d =
          if k = j1 then xs.getD i1 d else if k = i1 then xs.getD j1 d else xs.getD k d :=
        swapAt_getD xs (by omega) (by omega)
      have hpa : (swapAt xs i1 j1).getD a d = xs.getD a d := by
        rw [hsw a]
        have h1 : a ≠ j1 := by omega
        have h2 : a ≠ i1 := by omega
        simp [h1, h2]
      have ih := partitionEqualLoop_spec a b fuel (swapAt xs i1 j1) (i1 + 1) (j1 - 1)
        (by rw [swapAt_length]; exact hb) (by omega) (by omega) (by omega) (by omega)
        (by
          intro k hk1 hk2
          rw [hpa, hsw k]
          have h1 : k ≠ j1 := by omega
          simp only [h1, if_false]
          by_cases hki1 : k = i1
          · simp only [hki1, if_true]; exact h5
          · simp only [hki1, if_false]
            by_cases hki : k < i
            · exact hA k hk1 hki
            · exact s3 k (by omega) (by omega))
        (by
          intro k hk1 hk2
          rw [hpa, hsw k]
          by_cases hkj1 : k = j1
          · simp only [hkj1, if_true]; exact h4
          · have h2 : k ≠ i1 := by omega
            simp only [hkj1, h2, if_false]
            by_cases hkj : j < k
            · exact hB k hkj hk2
            · exact t3 k (by omega) (by omega))
      rw [hpa] at ih
      exact ⟨(Within.swap xs (by omega) (by omega) (by omega) (by omega) hb).trans ih.1,
        ih.2.1, ih.2.2.1, ih.2.2.2.1, ih.2.2.2.2⟩

/-- `partitionEqual_func` rearranges the range into the positions not greater than the
pivot, the pivot in front, followed from the returned position on by those greater. -/
theorem partitionEqual_func_spec (hlt : LessOK f) (xs : List α) (a b pivot : Nat)
    (hb : b ≤ xs.length) (hap : a ≤ pivot) (hpb : pivot < b) :
    Within d a b xs (partitionEqual_func f xs a b pivot).1 ∧
      a + 1 ≤ (partitionEqual_func f xs a b pivot).2 ∧
      (partitionEqual_func f xs a b pivot).2 ≤ b ∧
      (∀ k, a ≤ k → k < (partitionEqual_func f xs a b pivot).2 →
        f (xs.getD pivot d) ((partitionEqual_func f xs a b pivot).1.getD k d) = false) ∧
      (∀ k, (partitionEqual_func f xs a b pivot).2 ≤ k → k < b →
        f (xs.getD pivot d) ((partitionEqual_func f xs a b pivot).1.getD k d) = true) := by
  unfold partitionEqual_func
  simp only []
  have hw0 : Within d a b xs (swapAt xs a pivot) :=
    Within.swap xs (le_refl a) (by omega) hap hpb hb
  have hp : (swapAt xs a pivot).getD a d = xs.getD pivot d := by
    rw [swapAt_getD xs (by omega) (by omega)]
    by_cases h : a = pivot
    · simp [h]
    · simp [h]
  have hlen : (swapAt xs a pivot).length = xs.length := swapAt_length _ _ _
  generalize swapAt xs a pivot = ys at hw0 hp hlen ⊢
  obtain ⟨l1, l2, l3, l4, l5⟩ := partitionEqualLoop_spec (f := f) (d := d) a b ys.length ys
    (a + 1) (b - 1) (by omega) (le_refl _) (by omega) (by omega) (by omega)
    (fun k hk1 hk2 => by omega) (fun k hk1 hk2 => by omega)
  rw [hp] at l4 l5
  refine ⟨hw0.trans (l1.mono (by omega) (le_refl b)), l2, l3, ?_, l5⟩
  intro k hk1 hk2
  by_cases hka : k = a
  · subst hka
    rw [l1.2.2.1 k (Or.inl (by omega)), hp]
    exact hlt.irrefl _
  · exact l4 k (by omega) hk2

/-- `siftDown_func` repairs a heap whose only defect is at `root`. -/
theorem siftDown_func_spec (hlt : LessOK f) (hi first lo : Nat) :
    ∀ (fuel root : Nat) (xs : List α), first + hi ≤ xs.length → hi ≤ root + fuel →
      lo ≤ root → HeapExcept f d first lo hi root xs →
      Within d first (first + hi) xs (siftDown_func f hi first fuel root xs) ∧
        IsHeapFrom f d first lo hi (siftDown_func f hi first fuel root xs)
  | 0, root, xs, hlen, hfuel, hlo, hh => by
    unfold siftDown_func
    refine ⟨Within.refl _ _ _, ?_⟩
    intro k c hk hc hchi
    by_cases hkr : k = root
    · omega
    · exact hh.1 k c hk hkr hc hchi
  | fuel + 1, root, xs, hlen, hfuel, hlo, hh => by
    unfold siftDown_func
    simp only []
    by_cases h1 : 2 * root + 1 ≥ hi
    · rw [if_pos h1]
      refine ⟨Within.refl _ _ _, ?_⟩
      intro k c hk hc hchi
      by_cases hkr : k = root
      · omega
      · exact hh.1 k c hk hkr hc hchi
    · rw [if_neg h1]
      have hroot : first + root < xs.length := by omega
      have hc1 : first + (2 * root + 1) < xs.length := by omega
      -- the larger child
      obtain ⟨c, hcdef, hcc, hchi, hbig⟩ : ∃ c,
          (if (decide (2 * root + 1 + 1 < hi) &&
              lessAt f xs (first + (2 * root + 1)) (first + (2 * root + 1) + 1)) = true
            then 2 * root + 1 + 1 else 2 * root + 1) = c ∧
          (c = 2 * root + 1 ∨ c = 2 * root + 2) ∧ c < hi ∧
          (∀ o, (o = 2 * root + 1 ∨ o = 2 * root + 2) → o < hi →
            f (xs.getD (first + c) d) (xs.getD (first + o) d) = false) := by
        by_cases h2 : (decide (2 * root + 1 + 1 < hi) &&
            lessAt f xs (first + (2 * root + 1)) (first + (2 * root + 1) + 1)) = true
        · refine ⟨2 * root + 2, by rw [if_pos h2], Or.inr rfl, ?_, ?_⟩
          · simp only [Bool.and_eq_true, decide_eq_true_eq] at h2
            omega
          · simp only [Bool.and_eq_true, decide_eq_true_eq] at h2
            obtain ⟨h3, h4⟩ := h2
            rw [lessAt_eq (d := d) xs hc1 (by omega)] at h4
            intro o ho hohi
            rcases ho with rfl | rfl
            · exact hlt.le_of_lt h4
            · exact hlt.irrefl _
        · refine ⟨2 * root + 1, by rw [if_neg h2], Or.inl rfl, by omega, ?_⟩
          intro o ho hohi
          rcases ho with rfl | rfl
          · exact hlt.irrefl _
          · simp only [Bool.and_eq_true, decide_eq_true_eq, not_and, Bool.not_eq_true] at h2
            have h4 := h2 (by omega)
            rw [lessAt_eq (d := d) xs hc1 (by omega)] at h4
            exact h4
      rw [hcdef]
      have hcx : first + c < xs.length := by omega
      by_cases h3 : (!lessAt f xs (first + root) (first + c)) = true
      · rw [if_pos h3]
        simp only [Bool.not_eq_true'] at h3
        rw [lessAt_eq (d := d) xs hroot hcx] at h3
        refine ⟨Within.refl _ _ _, ?_⟩
        intro k o hk ho hohi
        by_cases hkr : k = root
        · subst hkr
          exact hlt.incomp _ _ _ h3 (hbig o ho hohi)
        · exact hh.1 k o hk hkr ho hohi
      · rw [if_neg h3]
        simp only [Bool.not_eq_true', Bool.not_eq_false] at h3
        rw [lessAt_eq (d := d) xs hroot hcx] at h3
        have hsw : ∀ k, (swapAt xs (first + root) (first + c)).getD k d =
            if k = first + c then xs.getD (first + root) d
            else if k = first + root then xs.getD (first + c) d else xs.getD k d :=
          swapAt_getD xs hroot hcx
        have ih := siftDown_func_spec hlt hi first lo fuel c
          (swapAt xs (first + root) (first + c)) (by rw [swapAt_length]; exact hlen) (by omega)
          (by omega)
          (by
            constructor
            · intro k o hk hkc ho hohi
              rw [hsw (first + k), hsw (first + o)]
              have hkc2 : first + k ≠ first + c := by omega
              simp only [hkc2, if_false]
              by_cases hkr : k = root
              · subst hkr
                simp only [if_true]
                by_cases hoc : o = c
                · subst hoc
                  simp only [if_true]
                  exact hlt.le_of_lt h3
                · have h5 : first + o ≠ first + c := by omega
                  have h6 : first + o ≠ first + k := by omega
                  simp only [h5, h6, if_false]
                  exact hbig o ho hohi
              · have h7 : first + k ≠ first + root := by omega
                simp only [h7, if_false]
                have hoc : first + o ≠ first + c := by omega
                simp only [hoc, if_false]
                by_cases hor : o = root
                · subst hor
                  simp only [if_true]
                  exact hh.2 c k hcc hchi hk ho
                · have h8 : first + o ≠ first + root := by omega
                  simp only [h8, if_false]
                  exact hh.1 k o hk hkr ho hohi
            · intro o p ho hohi hp hcp
              have hpr : p = root := by omega
              subst hpr
              rw [hsw (first + p), hsw (first + o)]
              have h5 : first + p ≠ first + c := by omega
              have h6 : first + o ≠ first + c := by omega
              have h7 : first + o ≠ first + p := by omega
              simp only [h5, h6, h7, if_true, if_false]
              exact hh.1 c o (by omega) (by omega) ho hohi)
        exact ⟨(Within.swap xs (by omega) (by omega) (by omega) (by omega) hlen).trans ih.1,
          ih.2⟩

/-- The root of a heap is not less than any of its nodes. -/
theorem heap_root_max (hlt : LessOK f) (first hi : Nat) (xs : List α)
    (hh : IsHeapFrom f d first 0 hi xs) :
    ∀ k, k < hi → f (xs.getD (first + 0) d) (xs.getD (first + k) d) = false := by
  intro k
  induction k using Nat.strong_induction_on with
  | _ k ih =>
    intro hk
    by_cases hk0 : k = 0
    · subst hk0
      exact hlt.irrefl _
    · have h1 := hh ((k - 1) / 2) k (Nat.zero_le _) (by omega) hk
      have h2 := ih ((k - 1) / 2) (by omega) (by omega)
      exact hlt.incomp _ _ _ h2 h1

/-- The first loop of `heapSort_func` builds the heap, node by node downwards. -/
theorem heapBuild_spec (hlt : LessOK f) (hi first : Nat) :
    ∀ (n : Nat) (xs : List α), first + hi ≤ xs.length → IsHeapFrom f d first n hi xs →
      Within d first (first + hi) xs
          ((List.range n).reverse.foldl (fun ys i => siftDown_func f hi first hi i ys) xs) ∧
        IsHeapFrom f d first 0 hi
          ((List.range n).reverse.foldl (fun ys i => siftDown_func f hi first hi i ys) xs)
  | 0, xs, _, hh => by
    simp only [List.range_zero, List.reverse_nil, List.foldl_nil]
    exact ⟨Within.refl _ _ _, hh⟩
  | n + 1, xs, hlen, hh => by
    simp only [List.range_succ, List.reverse_append, List.reverse_cons, List.reverse_nil,
      List.nil_append, List.singleton_append, List.foldl_cons]
    obtain ⟨w1, g1⟩ := siftDown_func_spec (d := d) hlt hi first n hi n xs hlen (by omega)
      (le_refl n)
      ⟨fun k c hk hkn hc hchi => hh k c (by omega) hc hchi,
        fun c p hc hchi hp hnp => by omega⟩
    obtain ⟨w2, g2⟩ := heapBuild_spec hlt hi first n (siftDown_func f hi first hi n xs)
      (by rw [w1.1]; exact hlen) g1
    exact ⟨w1.trans w2, g2⟩

/-- The second loop of `heapSort_func` moves the root behind the heap, heap size by heap
size, and leaves the whole range in order. -/
theorem heapExtract_spec (hlt : LessOK f) (hi first : Nat) :
    ∀ (m : Nat) (xs : List α), m ≤ hi → first + hi ≤ xs.length →
      IsHeapFrom f d first 0 m xs →
      SortedRange f d (first + m) (first + hi) xs →
      (∀ k q, k < m → m ≤ q → q < hi →
        f (xs.getD (first + q) d) (xs.getD (first + k) d) = false) →
      Within d first (first + hi) xs
          ((List.range m).reverse.foldl
            (fun ys i => siftDown_func f i first hi 0 (swapAt ys first (first + i))) xs) ∧
        SortedRange f d first (first + hi)
          ((List.range m).reverse.foldl
            (fun ys i => siftDown_func f i first hi 0 (swapAt ys first (first + i))) xs)
  | 0, xs, _, _, _, hs, _ => by
    simp only [List.range_zero, List.reverse_nil, List.foldl_nil]
    exact ⟨Within.refl _ _ _, hs⟩
  | m + 1, xs, hm, hlen, hh, hs, hb => by
    simp only [List.range_succ, List.reverse_append, List.reverse_cons, List.reverse_nil,
      List.nil_append, List.singleton_append, List.foldl_cons]
    have hmax := heap_root_max (d := d) hlt first (m + 1) xs hh
    have hsw : ∀ k, (swapAt xs first (first + m)).getD k d =
        if k = first + m then xs.getD first d
        else if k = first then xs.getD (first + m) d else xs.getD k d :=
      swapAt_getD xs (by omega) (by omega)
    have hw1 : Within d first (first + (m + 1)) xs (swapAt xs first (first + m)) :=
      Within.swap xs (le_refl _) (by omega) (by omega) (by omega) (by omega)
    obtain ⟨w2, g2⟩ := siftDown_func_spec (d := d) hlt m first 0 hi 0
      (swapAt xs first (first + m)) (by rw [swapAt_length]; omega) (by omega) (le_refl 0)
      ⟨by
        intro k c _ hk0 hc hcm
        rw [hsw (first + k), hsw (first + c)]
        have h1 : first + k ≠ first + m := by omega
        have h2 : first + k ≠ first := by omega
        have h3 : first + c ≠ first + m := by omega
        have h4 : first + c ≠ first := by omega
        simp only [h1, h2, h3, h4, if_false]
        exact hh k c (Nat.zero_le _) hc (by omega),
       fun c p hc hcm hp h0 => by omega⟩
    generalize hys : siftDown_func f m first hi 0 (swapAt xs first (first + m)) = ys at w2 g2 ⊢
    have hout : ∀ q, m ≤ q → ys.getD (first + q) d =
        (swapAt xs first (first + m)).getD (first + q) d :=
      fun q hq => w2.2.2.1 (first + q) (Or.inr (by omega))
    have hin : ∀ k, k < m → ∃ k2, k2 < m + 1 ∧ ys.getD (first + k) d = xs.getD (first + k2) d := by
      intro k hk
      obtain ⟨n, hn1, hn2, hn⟩ := w2.2.2.2 (first + k) (by omega) (by omega)
      rw [hn, hsw n]
      have h1 : n ≠ first + m := by omega
      simp only [h1, if_false]
      by_cases hn0 : n = first
      · simp only [hn0, if_true]
        exact ⟨m, by omega, rfl⟩
      · simp only [hn0, if_false]
        exact ⟨n - first, by omega, by congr 1; omega⟩
    have hym : ys.getD (first + m) d = xs.getD (first + 0) d := by
      rw [hout m (le_refl m), hsw (first + m)]
      simp
    have hyq : ∀ q, m < q → ys.getD (first + q) d = xs.getD (first + q) d := by
      intro q hq
      rw [hout q (by omega), hsw (first + q)]
      have h1 : first + q ≠ first + m := by omega
      have h2 : first + q ≠ first := by omega
      simp only [h1, h2, if_false]
    obtain ⟨w3, g3⟩ := heapExtract_spec hlt hi first m ys (by omega)
      (by rw [w2.1, swapAt_length]; exact hlen) g2
      (by
        intro i j hi1 hij hj
        obtain ⟨q, rfl⟩ : ∃ q, j = first + q := ⟨j - first, by omega⟩
        obtain ⟨p, rfl⟩ : ∃ p, i = first + p := ⟨i - first, by omega⟩
        rw [hyq q (by omega)]
        by_cases hpm : p = m
        · subst hpm
          rw [hym]
          exact hb 0 q (by omega) (by omega) (by omega)
        · rw [hyq p (by omega)]
          exact hs (first + p) (first + q) (by omega) hij hj)
      (by
        intro k q hk hq hqhi
        obtain ⟨k2, hk2, hk3⟩ := hin k hk
        rw [hk3]
        by_cases hqm : q = m
        · subst hqm
          rw [hym]
          exact hmax k2 hk2
        · rw [hyq q (by omega)]
          exact hb k2 q hk2 (by omega) hqhi)
    exact ⟨((hw1.mono (le_refl _) (by omega)).trans
      (w2.mono (le_refl _) (by omega))).trans w3, g3⟩

/-- `heapSort_func` rearranges the range `a ≤ k < b` and leaves it in order. -/
theorem heapSort_func_spec (hlt : LessOK f) (xs : List α) (a b : Nat) (hab : a ≤ b)
    (hb : b ≤ xs.length) :
    Within d a b xs (heapSort_func f xs a b) ∧
      SortedRange f d a b (heapSort_func f xs a b) := by
  unfold heapSort_func
  simp only []
  obtain ⟨w1, g1⟩ := heapBuild_spec (d := d) hlt (b - a) a ((b - a - 1) / 2 + 1) xs
    (by omega) (by intro k c hk hc hchi; omega)
  generalize (List.range ((b - a - 1) / 2 + 1)).reverse.foldl
    (fun ys i => siftDown_func f (b - a) a (b - a) i ys) xs = ys at w1 g1 ⊢
  obtain ⟨w2, g2⟩ := heapExtract_spec (d := d) hlt (b - a) a (b - a) ys (le_refl _)
    (by rw [w1.1]; omega) g1 (by intro i j hi hij hj; omega)
    (by intro k q hk hq hqhi; omega)
  have e : a + (b - a) = b := by omega
  rw [e] at w1 w2 g2
  exact ⟨w1.trans w2, g2⟩

/-- A property of all elements of a range survives a rearrangement inside the range. -/
theorem Within.forall_in {a b : Nat} {xs ys : List α} (h : Within d a b xs ys)
    (P : α → Prop) (hP : ∀ k, a ≤ k → k < b → P (xs.getD k d)) :
    ∀ k, a ≤ k → k < b → P (ys.getD k d) := by
  intro k hk1 hk2
  obtain ⟨m, hm1, hm2, hm⟩ := h.2.2.2 k hk1 hk2
  rw [hm]
  exact hP m hm1 hm2

/-- `breakPatterns_func` rearranges inside the range. -/
theorem breakPatterns_func_spec (xs : List α) (a b : Nat) (hab : a ≤ b) (hb : b ≤ xs.length) :
    Within d a b xs (breakPatterns_func xs a b) := by
  unfold breakPatterns_func
  simp only []
  by_cases h8 : b - a ≥ 8
  · rw [if_pos h8]
    have hmod : 2 ^ bitsLen (b - a) ≤ 2 * (b - a) := by
      unfold bitsLen
      rw [if_neg (by omega), pow_succ]
      have := (ilog2_spec (b - a) (by omega)).1
      omega
    have hother : ∀ r : Nat,
        (if r % 2 ^ bitsLen (b - a) ≥ b - a then r % 2 ^ bitsLen (b - a) - (b - a)
          else r % 2 ^ bitsLen (b - a)) < b - a := by
      intro r
      have h1 : r % 2 ^ bitsLen (b - a) < 2 ^ bitsLen (b - a) :=
        Nat.mod_lt _ (by positivity)
      split_ifs with h2 <;> omega
    have w1 := Within.swap (d := d) xs (i := a + (b - a) / 4 * 2 - 1 - 1 + 0)
      (j := a + (if xorshiftNext (b - a) % 2 ^ bitsLen (b - a) ≥ b - a then
          xorshiftNext (b - a) % 2 ^ bitsLen (b - a) - (b - a)
        else xorshiftNext (b - a) % 2 ^ bitsLen (b - a)))
      (a := a) (b := b) (by omega) (by omega) (by omega)
      (by have := hother (xorshiftNext (b - a)); omega) hb
    refine w1.trans ?_
    generalize swapAt xs _ _ = ys at w1 ⊢
    have hb1 : b ≤ ys.length := by rw [w1.1]; exact hb
    have w2 := Within.swap (d := d) ys (i := a + (b - a) / 4 * 2 - 1 - 1 + 1)
      (j := a + (if xorshiftNext (xorshiftNext (b - a)) % 2 ^ bitsLen (b - a) ≥ b - a then
          xorshiftNext (xorshiftNext (b - a)) % 2 ^ bitsLen (b - a) - (b - a)
        else xorshiftNext (xorshiftNext (b - a)) % 2 ^ bitsLen (b - a)))
      (a := a) (b := b) (by omega) (by omega) (by omega)
      (by have := hother (xorshiftNext (xorshiftNext (b - a))); omega) hb1
    refine w2.trans ?_
    generalize swapAt ys _ _ = zs at w2 ⊢
    have hb2 : b ≤ zs.length := by rw [w2.1]; exact hb1
    exact Within.swap (d := d) zs (by omega) (by omega) (by omega)
      (by have := hother (xorshiftNext (xorshiftNext (xorshiftNext (b - a)))); omega) hb2
  · rw [if_neg h8]
    exact Within.refl _ _ _

/-- `order2_func` returns its two indices, in one order or the other. -/
theorem order2_func_mem (xs : List α) (a b s : Nat) :
    ((order2_func f xs a b s).1 = a ∧ (order2_func f xs a b s).2.1 = b) ∨
      ((order2_func f xs a b s).1 = b ∧ (order2_func f xs a b s).2.1 = a) := by
  unfold order2_func
  split_ifs
  · exact Or.inr ⟨rfl, rfl⟩
  · exact Or.inl ⟨rfl, rfl⟩

/-- `median_func` returns one of its three indices. -/
theorem median_func_mem (xs : List α) (a b c s : Nat) :
    (median_func f xs a b c s).1 = a ∨ (median_func f xs a b c s).1 = b ∨
      (median_func f xs a b c s).1 = c := by
  unfold median_func
  simp only []
  rcases order2_func_mem (f := f) xs a b s with ⟨h1, h2⟩ | ⟨h1, h2⟩ <;>
    generalize order2_func f xs a b s = r1 at h1 h2 ⊢ <;>
    obtain ⟨x1, y1, s1⟩ := r1 <;> simp only [] at h1 h2 ⊢ <;> subst h1 h2 <;>
    (rcases order2_func_mem (f := f) xs y1 c s1 with ⟨h3, h4⟩ | ⟨h3, h4⟩ <;>
      generalize order2_func f xs y1 c s1 = r2 at h3 h4 ⊢ <;>
      obtain ⟨x2, y2, s2⟩ := r2 <;> simp only [] at h3 h4 ⊢ <;> subst h3 h4 <;>
      (rcases order2_func_mem (f := f) xs x1 x2 s2 with ⟨h5, h6⟩ | ⟨h5, h6⟩ <;>
        generalize order2_func f xs x1 x2 s2 = r3 at h5 h6 ⊢ <;>
        obtain ⟨x3, y3, s3⟩ := r3 <;> simp only [] at h5 h6 ⊢ <;> subst h5 h6 <;> simp))

/-- `medianAdjacent_func` returns the position or one of its two neighbours. -/
theorem medianAdjacent_func_mem (xs : List α) (a s : Nat) :
    (medianAdjacent_func f xs a s).1 = a - 1 ∨ (medianAdjacent_func f xs a s).1 = a ∨
      (medianAdjacent_func f xs a s).1 = a + 1 :=
  median_func_mem xs (a - 1) a (a + 1) s

/-- The median search returns a position of the range. -/
theorem choosePivotMedian_spec (xs : List α) (a b : Nat) (hab : a + 8 ≤ b) :
    a ≤ (choosePivotMedian f xs a b).1 ∧ (choosePivotMedian f xs a b).1 < b := by
  unfold choosePivotMedian
  dsimp only
  rw [if_pos (by omega : b - a ≥ 8)]
  by_cases h50 : b - a ≥ 50
  · rw [if_pos h50]
    have m1 := medianAdjacent_func_mem (f := f) xs (a + (b - a) / 4 * 1) 0
    generalize medianAdjacent_func f xs (a + (b - a) / 4 * 1) 0 = r1 at m1 ⊢
    have m2 := medianAdjacent_func_mem (f := f) xs (a + (b - a) / 4 * 2) r1.2
    generalize medianAdjacent_func f xs (a + (b - a) / 4 * 2) r1.2 = r2 at m2 ⊢
    have m3 := medianAdjacent_func_mem (f := f) xs (a + (b - a) / 4 * 3) r2.2
    generalize medianAdjacent_func f xs (a + (b - a) / 4 * 3) r2.2 = r3 at m3 ⊢
    have m4 := median_func_mem (f := f) xs r1.1 r2.1 r3.1 r3.2
    omega
  · rw [if_neg h50]
    have m4 := median_func_mem (f := f) xs (a + (b - a) / 4 * 1) (a + (b - a) / 4 * 2)
      (a + (b - a) / 4 * 3) 0
    omega

/-- `choosePivot_func` returns a position of the range. -/
theorem choosePivot_func_spec (xs : List α) (a b : Nat) (hab : a + 8 ≤ b) :
    a ≤ (choosePivot_func f xs a b).1 ∧ (choosePivot_func f xs a b).1 < b := by
  have h := choosePivotMedian_spec (f := f) xs a b hab
  unfold choosePivot_func
  dsimp only
  split_ifs <;> exact h

/-- A run of swaps of mirrored positions rearranges inside the range. -/
theorem reverseRange_fold_spec (a b : Nat) :
    ∀ (l : List Nat) (xs : List α), (∀ k ∈ l, k < (b - a) / 2) → b ≤ xs.length →
      Within d a b xs (l.foldl (fun ys k => swapAt ys (a + k) (b - 1 - k)) xs)
  | [], xs, _, _ => Within.refl _ _ _
  | k :: l, xs, hl, hb => by
    simp only [List.foldl_cons]
    have hk := hl k (List.mem_cons_self _ _)
    have w1 := Within.swap (d := d) xs (i := a + k) (j := b - 1 - k) (a := a) (b := b)
      (by omega) (by omega) (by omega) (by omega) hb
    exact w1.trans (reverseRange_fold_spec a b l _
      (fun m hm => hl m (List.mem_cons_of_mem _ hm)) (by rw [w1.1]; exact hb))

/-- `reverseRange_func` rearranges inside the range. -/
theorem reverseRange_func_spec (xs : List α) (a b : Nat) (hb : b ≤ xs.length) :
    Within d a b xs (reverseRange_func xs a b) := by
  unfold reverseRange_func
  exact reverseRange_fold_spec a b _ xs (fun k hk => List.mem_range.1 hk) hb

/-- The elements of a range stay bounded below by the element in front of the range when
the range is rearranged. -/
theorem Within.lowerBound {a b : Nat} {xs ys : List α} (h : Within d a b xs ys)
    (hlb : 0 < a → ∀ k, a ≤ k → k < b → f (xs.getD k d) (xs.getD (a - 1) d) = false) :
    0 < a → ∀ k, a ≤ k → k < b → f (ys.getD k d) (ys.getD (a - 1) d) = false := by
  intro ha
  rw [h.2.2.1 (a - 1) (Or.inl (by omega))]
  exact h.forall_in (fun x => f x (xs.getD (a - 1) d) = false) (hlb ha)

/-- An ordered range grows by one position whose element is not less than the one before. -/
theorem SortedRange.extend (hlt : LessOK f) {a n : Nat} {xs : List α}
    (hs : SortedRange f d a n xs) (hn : f (xs.getD n d) (xs.getD (n - 1) d) = false) :
    SortedRange f d a (n + 1) xs := by
  intro p q hp hpq hq
  by_cases hqn : q = n
  · subst hqn
    by_cases hpn : p = q - 1
    · subst hpn; exact hn
    · exact hlt.le_trans (hs p (q - 1) hp (by omega) (by omega)) hn
  · exact hs p q hp hpq (by omega)

/-- A run of positions, each not less than the one before, extends an ordered range. -/
theorem SortedRange.extend_run (hlt : LessOK f) {a i : Nat} {xs : List α}
    (hs : SortedRange f d a i xs) :
    ∀ m, i ≤ m → (∀ k, i ≤ k → k < m → f (xs.getD k d) (xs.getD (k - 1) d) = false) →
      SortedRange f d a m xs := by
  intro m hm
  induction m, hm using Nat.le_induction with
  | base => intro _; exact hs
  | succ n hn ih =>
    intro h
    exact (ih (fun k hk1 hk2 => h k hk1 (by omega))).extend hlt (h n hn (by omega))

/-- The scan of `partialInsertionSort_func` stops at the first position less than the one
before it. -/
theorem scanSorted_spec (xs : List α) (b : Nat) (hb : b ≤ xs.length) :
    ∀ (fuel i : Nat), 1 ≤ i → i ≤ b → b - i ≤ fuel →
      i ≤ scanSorted f xs b fuel i ∧ scanSorted f xs b fuel i ≤ b ∧
      (∀ k, i ≤ k → k < scanSorted f xs b fuel i →
        f (xs.getD k d) (xs.getD (k - 1) d) = false) ∧
      (scanSorted f xs b fuel i < b →
        f (xs.getD (scanSorted f xs b fuel i) d)
          (xs.getD (scanSorted f xs b fuel i - 1) d) = true)
  | 0, i, h0, h1, h2 => by
    unfold scanSorted
    exact ⟨le_refl i, h1, fun k hk1 hk2 => by omega, fun h => by omega⟩
  | fuel + 1, i, h0, h1, h2 => by
    unfold scanSorted
    by_cases hc : (decide (i < b) && !lessAt f xs i (i - 1)) = true
    · rw [if_pos hc]
      simp only [Bool.and_eq_true, decide_eq_true_eq, Bool.not_eq_true'] at hc
      obtain ⟨hib, hless⟩ := hc
      rw [lessAt_eq (d := d) xs (by omega) (by omega)] at hless
      obtain ⟨r1, r2, r3, r4⟩ := scanSorted_spec xs b hb fuel (i + 1) (by omega) (by omega)
        (by omega)
      refine ⟨by omega, r2, ?_, r4⟩
      intro k hk1 hk2
      by_cases hki : k = i
      · subst hki; exact hless
      · exact r3 k (by omega) hk2
    · rw [if_neg hc]
      refine ⟨le_refl i, h1, fun k hk1 hk2 => by omega, ?_⟩
      intro hib
      simp only [Bool.and_eq_true, decide_eq_true_eq, Bool.not_eq_true', not_and,
        Bool.not_eq_false] at hc
      have := hc hib
      rw [lessAt_eq (d := d) xs (by omega) (by omega)] at this
      exact this

/-- Shifting to the left stops at the front of the range at the latest, the element before
the range being no greater than the range: it is the inner loop of insertion sort. -/
theorem shiftLeft_eq (a : Nat) :
    ∀ (j : Nat) (xs : List α), a ≤ j → j < xs.length →
      (0 < a → ∀ k, a ≤ k → k ≤ j → f (xs.getD k d) (xs.getD (a - 1) d) = false) →
      shiftLeft f j xs = insertionSortInner f a j xs
  | 0, xs, _, _, _ => by
    unfold shiftLeft insertionSortInner
    rfl
  | j + 1, xs, ha, hj, hlb => by
    unfold shiftLeft insertionSortInner
    by_cases haj : a = j + 1
    · have h1 := hlb (by omega) a (le_refl a) (by omega)
      have h2 : lessAt f xs (j + 1) j = false := by
        rw [lessAt_eq (d := d) xs hj (by omega)]
        have e : a - 1 = j := by omega
        rw [haj] at h1
        simpa using h1
      simp [h2, haj]
    · have hgt : j + 1 > a := by omega
      by_cases hless : lessAt f xs (j + 1) j = true
      · simp only [hless, Bool.not_true, Bool.false_eq_true, if_false, hgt, decide_True,
          Bool.and_self, if_true]
        apply shiftLeft_eq a j (swapAt xs (j + 1) j) (by omega)
          (by rw [swapAt_length]; omega)
        intro h0 k hk1 hk2
        have hsw : ∀ k, (swapAt xs (j + 1) j).getD k d =
            if k = j then xs.getD (j + 1) d else if k = j + 1 then xs.getD j d
            else xs.getD k d :=
          swapAt_getD xs hj (by omega)
        rw [hsw k, hsw (a - 1)]
        have h1 : a - 1 ≠ j := by omega
        have h2 : a - 1 ≠ j + 1 := by omega
        have h3 : k ≠ j + 1 := by omega
        simp only [h1, h2, h3, if_false]
        by_cases hkj : k = j
        · simp only [hkj, if_true]
          exact hlb h0 (j + 1) (by omega) (le_refl _)
        · simp only [hkj, if_false]
          exact hlb h0 k hk1 (by omega)
      · simp only [Bool.not_eq_true] at hless
        simp [hless]

/-- Shifting to the right rearranges inside the range behind the starting position. -/
theorem shiftRight_spec (i b : Nat) :
    ∀ (fuel j : Nat) (xs : List α), i + 1 ≤ j → b ≤ xs.length →
      Within d i b xs (shiftRight f b fuel j xs)
  | 0, j, xs, _, _ => by
    unfold shiftRight
    exact Within.refl _ _ _
  | fuel + 1, j, xs, hj, hb => by
    unfold shiftRight
    split_ifs with h1 h2
    · exact Within.refl _ _ _
    · exact (Within.swap xs (by omega) h1 (by omega) (by omega) hb).trans
        (shiftRight_spec i b fuel (j + 1) _ (by omega) (by rw [swapAt_length]; exact hb))
    · exact Within.refl _ _ _

/-- The loop of `partialInsertionSort_func` rearranges inside the range and reports
success only with the range in order. -/
theorem partialInsertionLoop_spec (hlt : LessOK f) (a b : Nat) :
    ∀ (steps i : Nat) (xs : List α), a + 1 ≤ i → i ≤ b → b ≤ xs.length →
      SortedRange f d a i xs →
      (0 < a → ∀ k, a ≤ k → k < b → f (xs.getD k d) (xs.getD (a - 1) d) = false) →
      Within d a b xs (partialInsertionLoop f a b steps i xs).1 ∧
        ((partialInsertionLoop f a b steps i xs).2 = true →
          SortedRange f d a b (partialInsertionLoop f a b steps i xs).1)
  | 0, i, xs, _, _, _, _, _ => by
    unfold partialInsertionLoop
    exact ⟨Within.refl _ _ _, fun h => by simp at h⟩
  | steps + 1, i, xs, hai, hib, hb, hs, hlb => by
    unfold partialInsertionLoop
    dsimp only
    obtain ⟨s1, s2, s3, s4⟩ := scanSorted_spec (f := f) (d := d) xs b hb xs.length i
      (by omega) hib (by omega)
    generalize scanSorted f xs b xs.length i = i1 at s1 s2 s3 s4 ⊢
    have hs1 : SortedRange f d a i1 xs := hs.extend_run hlt i1 s1 s3
    by_cases h1 : i1 = b
    · rw [if_pos h1]
      exact ⟨Within.refl _ _ _, fun _ => h1 ▸ hs1⟩
    · rw [if_neg h1]
      by_cases h2 : b - a < 50
      · rw [if_pos h2]
        exact ⟨Within.refl _ _ _, fun h => by simp at h⟩
      · rw [if_neg h2]
        have hw1 : Within d a b xs (swapAt xs i1 (i1 - 1)) :=
          Within.swap xs (by omega) (by omega) (by omega) (by omega) hb
        have hsw : ∀ k, (swapAt xs i1 (i1 - 1)).getD k d =
            if k = i1 - 1 then xs.getD i1 d else if k = i1 then xs.getD (i1 - 1) d
            else xs.getD k d :=
          swapAt_getD xs (by omega) (by omega)
        have hlen1 : (swapAt xs i1 (i1 - 1)).length = xs.length := swapAt_length _ _ _
        have hpre : ∀ p q, a ≤ p → p < q → q < i1 - 1 →
            f ((swapAt xs i1 (i1 - 1)).getD q d) ((swapAt xs i1 (i1 - 1)).getD p d) = false := by
          intro p q hp hpq hq
          rw [hsw p, hsw q]
          have e1 : p ≠ i1 - 1 := by omega
          have e2 : p ≠ i1 := by omega
          have e3 : q ≠ i1 - 1 := by omega
          have e4 : q ≠ i1 := by omega
          simp only [e1, e2, e3, e4, if_false]
          exact hs1 p q hp hpq (by omega)
        have hlb1 := hw1.lowerBound hlb
        generalize swapAt xs i1 (i1 - 1) = xs1 at hw1 hlen1 hpre hlb1 ⊢
        -- shifting the smaller element to the left
        obtain ⟨xs2, hxs2, hw2, hs2⟩ : ∃ xs2,
            (if i1 - a ≥ 2 then shiftLeft f (i1 - 1) xs1 else xs1) = xs2 ∧
            Within d a i1 xs1 xs2 ∧ SortedRange f d a i1 xs2 := by
          by_cases h3 : i1 - a ≥ 2
          · rw [if_pos h3]
            rw [shiftLeft_eq (f := f) (d := d) a (i1 - 1) xs1 (by omega) (by omega)
              (fun h0 k hk1 hk2 => hlb1 h0 k hk1 (by omega))]
            have h := insertionSortInner_spec (d := d) hlt a (i1 - 1) (i1 - 1) xs1 (by omega)
              (le_refl _) (by omega)
              (fun p q hp hpq hq _ hq2 => hpre p q hp hpq (by omega))
              (fun q hq1 hq2 => by omega)
            have e : i1 - 1 + 1 = i1 := by omega
            rw [e] at h
            exact ⟨_, rfl, h.1, h.2⟩
          · rw [if_neg h3]
            exact ⟨_, rfl, Within.refl _ _ _, fun p q hp hpq hq => by omega⟩
        rw [hxs2]
        have hlen2 : xs2.length = xs.length := by rw [hw2.1, hlen1]
        -- shifting the greater element to the right
        obtain ⟨xs3, hxs3, hw3⟩ : ∃ xs3,
            (if b - i1 ≥ 2 then shiftRight f b xs2.length (i1 + 1) xs2 else xs2) = xs3 ∧
            Within d i1 b xs2 xs3 := by
          by_cases h4 : b - i1 ≥ 2
          · rw [if_pos h4]
            exact ⟨_, rfl, shiftRight_spec i1 b _ _ _ (le_refl _) (by omega)⟩
          · rw [if_neg h4]
            exact ⟨_, rfl, Within.refl _ _ _⟩
        rw [hxs3]
        have hw13 : Within d a b xs1 xs3 :=
          (hw2.mono (le_refl _) (by omega)).trans (hw3.mono (by omega) (le_refl _))
        have hs3 : SortedRange f d a i1 xs3 := by
          intro p q hp hpq hq
          rw [hw3.2.2.1 p (Or.inl (by omega)), hw3.2.2.1 q (Or.inl (by omega))]
          exact hs2 p q hp hpq hq
        obtain ⟨w4, g4⟩ := partialInsertionLoop_spec hlt a b steps i1 xs3 (by omega) s2
          (by rw [hw3.1, hlen2]; exact hb) hs3 (hw13.lowerBound hlb1)
        exact ⟨hw1.trans (hw13.trans w4), g4⟩

/-- `partialInsertionSort_func` rearranges inside the range and reports success only with
the range in order. -/
theorem partialInsertionSort_func_spec (hlt : LessOK f) (xs : List α) (a b : Nat)
    (hab : a + 1 ≤ b) (hb : b ≤ xs.length)
    (hlb : 0 < a → ∀ k, a ≤ k → k < b → f (xs.getD k d) (xs.getD (a - 1) d) = false) :
    Within d a b xs (partialInsertionSort_func f xs a b).1 ∧
      ((partialInsertionSort_func f xs a b).2 = true →
        SortedRange f d a b (partialInsertionSort_func f xs a b).1) := by
  unfold partialInsertionSort_func
  exact partialInsertionLoop_spec hlt a b 5 (a + 1) xs (le_refl _) hab hb
    (fun p q hp hpq hq => by omega) hlb

/-- The round up to the partitioning rearranges inside the range, yields a pivot of the
range, and reports the range as ordered only when it is. -/
theorem pdqPrepare_spec (hlt : LessOK f) (xs : List α) (a b : Nat) (wb wp : Bool)
    (hab : a + 8 ≤ b) (hb : b ≤ xs.length)
    (hlb : 0 < a → ∀ k, a ≤ k → k < b → f (xs.getD k d) (xs.getD (a - 1) d) = false) :
    Within d a b xs (pdqPrepare f xs a b wb wp).1 ∧
      a ≤ (pdqPrepare f xs a b wb wp).2.1 ∧ (pdqPrepare f xs a b wb wp).2.1 < b ∧
      ((pdqPrepare f xs a b wb wp).2.2 = true →
        SortedRange f d a b (pdqPrepare f xs a b wb wp).1) := by
  unfold pdqPrepare
  dsimp only
  obtain ⟨xs1, hxs1, w1⟩ : ∃ xs1,
      (if (!wb) = true then breakPatterns_func xs a b else xs) = xs1 ∧ Within d a b xs xs1 := by
    split_ifs
    · exact ⟨_, rfl, breakPatterns_func_spec xs a b (by omega) hb⟩
    · exact ⟨_, rfl, Within.refl _ _ _⟩
  rw [hxs1]
  have hb1 : b ≤ xs1.length := by rw [w1.1]; exact hb
  obtain ⟨hp1, hp2⟩ := choosePivot_func_spec (f := f) xs1 a b hab
  generalize choosePivot_func f xs1 a b = cp at hp1 hp2 ⊢
  obtain ⟨pv, hint⟩ := cp
  dsimp only at hp1 hp2 ⊢
  obtain ⟨xs2, hxs2, w2⟩ : ∃ xs2,
      (if hint = SortedHint.decreasingHint then reverseRange_func xs1 a b else xs1) = xs2 ∧
        Within d a b xs1 xs2 := by
    split_ifs
    · exact ⟨_, rfl, reverseRange_func_spec xs1 a b hb1⟩
    · exact ⟨_, rfl, Within.refl _ _ _⟩
  rw [hxs2]
  have hb2 : b ≤ xs2.length := by rw [w2.1]; exact hb1
  have w12 := w1.trans w2
  have hpiv : a ≤ (if hint = SortedHint.decreasingHint then b - 1 - (pv - a) else pv) ∧
      (if hint = SortedHint.decreasingHint then b - 1 - (pv - a) else pv) < b := by
    split_ifs <;> omega
  generalize (if hint = SortedHint.decreasingHint then b - 1 - (pv - a) else pv) = pv2 at hpiv ⊢
  generalize (if hint = SortedHint.decreasingHint then SortedHint.increasingHint else hint) =
    hint2
  by_cases hc : (wb && wp && decide (hint2 = SortedHint.increasingHint)) = true
  · rw [if_pos hc]
    obtain ⟨w3, g3⟩ := partialInsertionSort_func_spec (d := d) hlt xs2 a b (by omega) hb2
      (w12.lowerBound hlb)
    exact ⟨w12.trans w3, hpiv.1, hpiv.2, g3⟩
  · rw [if_neg hc]
    exact ⟨w12, hpiv.1, hpiv.2, fun h => by simp at h⟩

/-- A range split at a pivot, both sides in order, the left side less than the pivot and
the right side not less, is in order. -/
theorem SortedRange.of_partition (hlt : LessOK f) {a b mid : Nat} {ys : List α} (p : α)
    (hmid : ys.getD mid d = p)
    (hl : SortedRange f d a mid ys) (hr : SortedRange f d (mid + 1) b ys)
    (hA : ∀ k, a ≤ k → k < mid → f (ys.getD k d) p = true)
    (hB : ∀ k, mid < k → k < b → f (ys.getD k d) p = false) :
    SortedRange f d a b ys := by
  intro i j hi hij hj
  rcases Nat.lt_trichotomy j mid with hjm | hjm | hjm
  · exact hl i j hi hij hjm
  · subst hjm
    rw [hmid]
    exact hlt.le_of_lt (hA i hi hij)
  · rcases Nat.lt_trichotomy i mid with him | him | him
    · cases h : f (ys.getD j d) (ys.getD i d)
      · rfl
      · have := hlt.trans _ _ _ h (hA i hi him)
        rw [hB j hjm hj] at this
        exact absurd this (by decide)
    · subst him
      rw [hmid]
      exact hB j hjm hj
    · exact hr i j (by omega) hij hj

/-- A range whose front part is equivalent to the pivot and whose ordered rest is greater
than the pivot is in order. -/
theorem SortedRange.of_partitionEqual (hlt : LessOK f) {a b mid : Nat} {ys : List α} (p : α)
    (hr : SortedRange f d mid b ys)
    (hmin : ∀ k, a ≤ k → k < mid → f (ys.getD k d) p = false)
    (hA : ∀ k, a ≤ k → k < mid → f p (ys.getD k d) = false)
    (hB : ∀ k, mid ≤ k → k < b → f p (ys.getD k d) = true) :
    SortedRange f d a b ys := by
  intro i j hi hij hj
  by_cases him : i < mid
  · by_cases hjm : j < mid
    · exact hlt.incomp _ _ _ (hmin j (by omega) hjm) (hA i hi him)
    · cases h : f (ys.getD j d) (ys.getD i d)
      · rfl
      · have := hlt.trans _ _ _ (hB j (by omega) hj) h
        rw [hA i hi him] at this
        exact absurd this (by decide)
  · exact hr i j (by omega) hij hj

/-- `pdqsort_func` returns, with the range rearranged and in order, whenever the fuel
exceeds the length of the range and the element in front of the range is no greater than
the elements of the range. -/
theorem pdqsort_func_spec (hlt : LessOK f) :
    ∀ (fuel : Nat) (xs : List α) (a b limit : Nat) (wb wp : Bool), a ≤ b → b ≤ xs.length →
      b - a < fuel →
      (0 < a → ∀ k, a ≤ k → k < b → f (xs.getD k d) (xs.getD (a - 1) d) = false) →
      ∃ ys, pdqsort_func f fuel xs a b limit wb wp = some ys ∧ Within d a b xs ys ∧
        SortedRange f d a b ys
  | 0, xs, a, b, limit, wb, wp, _, _, hfuel, _ => by omega
  | fuel + 1, xs, a, b, limit, wb, wp, hab, hb, hfuel, hlb => by
    unfold pdqsort_func
    dsimp only
    by_cases h12 : b - a ≤ 12
    · rw [if_pos h12]
      obtain ⟨w, g⟩ := insertionSort_func_spec (d := d) hlt xs a b hb
      exact ⟨_, rfl, w, g⟩
    rw [if_neg h12]
    by_cases hl0 : limit = 0
    · rw [if_pos hl0]
      obtain ⟨w, g⟩ := heapSort_func_spec (d := d) hlt xs a b hab hb
      exact ⟨_, rfl, w, g⟩
    rw [if_neg hl0]
    generalize (if (!wb) = true then limit - 1 else limit) = limit2
    obtain ⟨w0, hp1, hp2, g0⟩ := pdqPrepare_spec (d := d) hlt xs a b wb wp (by omega) hb hlb
    generalize pdqPrepare f xs a b wb wp = r at w0 hp1 hp2 g0 ⊢
    obtain ⟨xs1, pivot, sorted⟩ := r
    dsimp only at w0 hp1 hp2 g0 ⊢
    by_cases hsorted : sorted = true
    · rw [if_pos hsorted]
      exact ⟨xs1, rfl, w0, g0 hsorted⟩
    rw [if_neg hsorted]
    have hb1 : b ≤ xs1.length := by rw [w0.1]; exact hb
    have hlb1 := w0.lowerBound hlb
    by_cases hc : (decide (a > 0) && !lessAt f xs1 (a - 1) pivot) = true
    · rw [if_pos hc]
      simp only [Bool.and_eq_true, decide_eq_true_eq, Bool.not_eq_true'] at hc
      obtain ⟨ha0, hless⟩ := hc
      rw [lessAt_eq (d := d) xs1 (by omega) (by omega)] at hless
      have hmin : ∀ k, a ≤ k → k < b → f (xs1.getD k d) (xs1.getD pivot d) = false :=
        fun k hk1 hk2 => hlt.incomp _ _ _ (hlb1 ha0 k hk1 hk2) hless
      obtain ⟨w1, m1, m2, hA, hB⟩ := partitionEqual_func_spec (d := d) hlt xs1 a b pivot hb1
        hp1 hp2
      have hmin1 := w1.forall_in (fun x => f x (xs1.getD pivot d) = false) hmin
      generalize partitionEqual_func f xs1 a b pivot = r2 at w1 m1 m2 hA hB hmin1 ⊢
      obtain ⟨xs2, mid⟩ := r2
      dsimp only at w1 m1 m2 hA hB hmin1 ⊢
      obtain ⟨ys, hys, w2, g2⟩ := pdqsort_func_spec hlt fuel xs2 mid b limit2 wb wp m2
        (by rw [w1.1]; exact hb1) (by omega)
        (by
          intro _ k hk1 hk2
          cases h : f (xs2.getD k d) (xs2.getD (mid - 1) d)
          · rfl
          · have := hlt.trans _ _ _ (hB k hk1 hk2) h
            rw [hA (mid - 1) (by omega) (by omega)] at this
            exact absurd this (by decide))
      refine ⟨ys, hys, w0.trans (w1.trans (w2.mono (by omega) (le_refl _))), ?_⟩
      refine SortedRange.of_partitionEqual hlt (xs1.getD pivot d) g2 ?_ ?_ ?_
      · intro k hk1 hk2
        rw [w2.2.2.1 k (Or.inl hk2)]
        exact hmin1 k hk1 (by omega)
      · intro k hk1 hk2
        rw [w2.2.2.1 k (Or.inl hk2)]
        exact hA k hk1 hk2
      · exact w2.forall_in (fun x => f (xs1.getD pivot d) x = true) hB
    rw [if_neg hc]
    obtain ⟨w1, m1, m2, hpm, hA, hB⟩ := partition_func_spec (f := f) (d := d) xs1 a b pivot
      hb1 hp1 hp2
    have hlb2 := (w0.trans w1).lowerBound hlb
    generalize partition_func f xs1 a b pivot = r2 at w1 m1 m2 hpm hA hB hlb2 ⊢
    obtain ⟨xs2, mid, ap⟩ := r2
    dsimp only at w1 m1 m2 hpm hA hB hlb2 ⊢
    have hb2 : b ≤ xs2.length := by rw [w1.1]; exact hb1
    by_cases hlr : mid - a < b - mid
    · rw [if_pos hlr]
      obtain ⟨ys1, hys1, wl, gl⟩ := pdqsort_func_spec hlt fuel xs2 a mid limit2 true true m1
        (by omega) (by omega) (fun h0 k hk1 hk2 => hlb2 h0 k hk1 (by omega))
      rw [hys1]
      dsimp only
      have hy1 : ∀ k, mid ≤ k → ys1.getD k d = xs2.getD k d :=
        fun k hk => wl.2.2.1 k (Or.inr hk)
      obtain ⟨ys2, hys2, wr, gr⟩ := pdqsort_func_spec hlt fuel ys1 (mid + 1) b limit2
        (decide (mid - a ≥ (b - a) / 8)) ap (by omega) (by rw [wl.1]; exact hb2) (by omega)
        (by
          intro _ k hk1 hk2
          rw [hy1 k (by omega), show mid + 1 - 1 = mid from rfl, hy1 mid (le_refl _), hpm]
          exact hB k (by omega) hk2)
      have hy2 : ∀ k, k ≤ mid → ys2.getD k d = ys1.getD k d :=
        fun k hk => wr.2.2.1 k (Or.inl (by omega))
      refine ⟨ys2, hys2, w0.trans (w1.trans ((wl.mono (le_refl _) (by omega)).trans
        (wr.mono (by omega) (le_refl _)))), ?_⟩
      refine SortedRange.of_partition hlt (xs1.getD pivot d) ?_ ?_ gr ?_ ?_
      · rw [hy2 mid (le_refl _), hy1 mid (le_refl _), hpm]
      · intro i j hi hij hj
        rw [hy2 i (by omega), hy2 j (by omega)]
        exact gl i j hi hij hj
      · intro k hk1 hk2
        rw [hy2 k (by omega)]
        exact wl.forall_in (fun x => f x (xs1.getD pivot d) = true) hA k hk1 hk2
      · intro k hk1 hk2
        exact wr.forall_in (fun x => f x (xs1.getD pivot d) = false)
          (fun m hm1 hm2 => by rw [hy1 m (by omega)]; exact hB m (by omega) hm2) k
          (by omega) hk2
    · rw [if_neg hlr]
      obtain ⟨ys1, hys1, wr, gr⟩ := pdqsort_func_spec hlt fuel xs2 (mid + 1) b limit2 true true
        (by omega) hb2 (by omega)
        (by
          intro _ k hk1 hk2
          rw [show mid + 1 - 1 = mid from rfl, hpm]
          exact hB k (by omega) hk2)
      rw [hys1]
      dsimp only
      have hy1 : ∀ k, k ≤ mid → ys1.getD k d = xs2.getD k d :=
        fun k hk => wr.2.2.1 k (Or.inl (by omega))
      obtain ⟨ys2, hys2, wl, gl⟩ := pdqsort_func_spec hlt fuel ys1 a mid limit2
        (decide (b - mid ≥ (b - a) / 8)) ap m1 (by rw [wr.1]; omega) (by omega)
        (by
          intro h0 k hk1 hk2
          rw [hy1 k (by omega), hy1 (a - 1) (by omega)]
          exact hlb2 h0 k hk1 (by omega))
      have hy2 : ∀ k, mid ≤ k → ys2.getD k d = ys1.getD k d :=
        fun k hk => wl.2.2.1 k (Or.inr hk)
      refine ⟨ys2, hys2, w0.trans (w1.trans ((wr.mono (by omega) (le_refl _)).trans
        (wl.mono (le_refl _) (by omega)))), ?_⟩
      refine SortedRange.of_partition hlt (xs1.getD pivot d) ?_ gl ?_ ?_ ?_
      · rw [hy2 mid (le_refl _), hy1 mid (le_refl _), hpm]
      · intro i j hi hij hj
        rw [hy2 i (by omega), hy2 j (by omega)]
        exact gr i j hi hij hj
      · exact wl.forall_in (fun x => f x (xs1.getD pivot d) = true)
          (fun m hm1 hm2 => by rw [hy1 m (by omega)]; exact hA m hm1 hm2)
      · intro k hk1 hk2
        rw [hy2 k (by omega)]
        exact wr.forall_in (fun x => f x (xs1.getD pivot d) = false)
          (fun m hm1 hm2 => hB m (by omega) hm2) k (by omega) hk2

/-- Go's `sort.Slice` returns: the fuel of the transcription suffices on every slice, and
the result is an ordered rearrangement. -/
theorem goSortSlice_spec (hlt : LessOK f) (xs : List α) :
    ∃ ys, goSortSlice f xs = some ys ∧ ys.Perm xs ∧
      ∀ i j, i < j → j < ys.length → f (ys.getD j d) (ys.getD i d) = false := by
  unfold goSortSlice
  obtain ⟨ys, hys, w, g⟩ := pdqsort_func_spec (d := d) hlt (xs.length + 1) xs 0 xs.length
    (bitsLen xs.length) true true (Nat.zero_le _) (le_refl _) (by omega)
    (fun h => by omega)
  exact ⟨ys, hys, w.2.1, fun i j hij hj => g i j (Nat.zero_le _) hij (by rw [← w.1]; exact hj)⟩

end PdqProof

/-- The contract of `sort.Slice` at one slice, from the value the routine returns there. -/
theorem sortSlice_at (s : SliceSorter) (f : Result → Result → Bool) (xs ys : List Result)
    (h : s f xs = ys) (hp : ys.Perm xs)
    (hadj : ∀ i (h : i + 1 < ys.length),
      f (ys.get ⟨i + 1, h⟩) (ys.get ⟨i, Nat.lt_of_succ_lt h⟩) = false) :
    (s f xs).Perm xs ∧
      ∀ i (h : i + 1 < (s f xs).length),
        f ((s f xs).get ⟨i + 1, h⟩) ((s f xs).get ⟨i, Nat.lt_of_succ_lt h⟩) = false := by
  subst h
  exact ⟨hp, hadj⟩

/-- Go's `sort.Slice`, as transcribed, meets its documented contract. -/
theorem goSort_spec : SortSliceSpec goSort := by
  intro f xs hlt
  cases xs with
  | nil =>
    exact sortSlice_at goSort f [] [] rfl (List.Perm.refl _) (fun i h => by simp at h)
  | cons x xs =>
    obtain ⟨ys, hys, hp, hs⟩ := goSortSlice_spec (d := x) hlt (x :: xs)
    have h : goSort f (x :: xs) = ys := by
      unfold goSort
      rw [hys]
      rfl
    refine sortSlice_at goSort f (x :: xs) ys h hp ?_
    intro i hi
    have := hs i (i + 1) (by omega) hi
    rw [List.getD_eq_getElem _ _ hi, List.getD_eq_getElem _ _ (by omega)] at this
    simpa using this

/-! ## The claims about the ranking -/

/-- C1. For every non-empty list of entities the ranking returns rows in which each row
and its successor satisfy: higher win percentage first, or equal win percentage and at
least as many up-votes; and the example of the specification (ids 1, 2, 3 with votes 8/2,
6/0, 0/0) is ranked 2, 1, 3 with win percentages 100, 80, 0 and totals 6, 10, 0.  This
holds for every sorting routine that meets the contract of `sort.Slice`. -/
theorem ranking_sorted (sortSlice : SliceSorter) (hs : SortSliceSpec sortSlice)
    (pokemon : List Pokemon) (hne : pokemon ≠ []) :
    (∃ out, ranking sortSlice pokemon = .ok out ∧ RankOrdered out) ∧
    (∃ out, ranking sortSlice specExample = .ok out ∧
      out.map (fun r => (r.ID, r.WinPercentage, r.TotalVotes)) =
        [(2, 100, 6), (1, 80, 10), (3, 0, 0)]) := by
  constructor
  · refine ⟨_, ranking_of_ne_nil sortSlice pokemon hne, ?_⟩
    intro i h
    exact (less_false_iff _ _).1 ((hs less _ less_ok).2 i h)
  · refine ⟨_, ranking_of_ne_nil sortSlice specExample (by decide), ?_⟩
    rw [specExample_sorted_rows sortSlice hs]
    decide!

/-- Witness of C1: Go's own sorting routine on the example of the specification. -/
theorem ranking_sorted_witness :
    SortSliceSpec goSort ∧ specExample ≠ [] ∧
      (∃ out, ranking goSort specExample = .ok out ∧ RankOrdered out) :=
  ⟨goSort_spec, by decide, (ranking_sorted goSort goSort_spec specExample (by decide)).1⟩

/-- C5 (failing input). On the empty sequence the ranking panics on `results[0]`: index 0
out of range for length 0; the resolver reports the panic instead of an empty list. -/
theorem ranking_empty_panics (sortSlice : SliceSorter) :
    ranking sortSlice [] = .error (.indexOutOfRange 0 0) ∧
      results sortSlice (.ok []) = .error (.panic (.indexOutOfRange 0 0)) :=
  ⟨rfl, rfl⟩

/-- C6. The row built for an entity has `totalVotes` equal to Go's sum of the two counters
(the mathematical sum whenever that fits in an `int`), win and loss percentages equal to
the `float64` value of `counter / totalVotes * 100` when `totalVotes > 0` and to `0`
otherwise; in particular both are `0` when `totalVotes` is `0`. -/
theorem resultOf_fields (p : Pokemon) :
    (resultOf p).TotalVotes = wrapInt (p.UpVotes + p.DownVotes) ∧
    (-2 ^ 63 ≤ p.UpVotes + p.DownVotes ∧ p.UpVotes + p.DownVotes < 2 ^ 63 →
      (resultOf p).TotalVotes = p.UpVotes + p.DownVotes) ∧
    (0 < (resultOf p).TotalVotes →
      (resultOf p).WinPercentage =
          f64mul (f64div (f64ofInt p.UpVotes) (f64ofInt (resultOf p).TotalVotes)) 100 ∧
        (resultOf p).LossPercentage =
          f64mul (f64div (f64ofInt p.DownVotes) (f64ofInt (resultOf p).TotalVotes)) 100) ∧
    (¬ 0 < (resultOf p).TotalVotes →
      (resultOf p).WinPercentage = 0 ∧ (resultOf p).LossPercentage = 0) ∧
    ((resultOf p).TotalVotes = 0 →
      (resultOf p).WinPercentage = 0 ∧ (resultOf p).LossPercentage = 0) := by
  refine ⟨rfl, ?_, ?_, ?_, ?_⟩
  · rintro ⟨h1, h2⟩
    show wrapInt (p.UpVotes + p.DownVotes) = p.UpVotes + p.DownVotes
    unfold wrapInt
    omega
  · intro h
    have h' : wrapInt (p.UpVotes + p.DownVotes) > 0 := h
    simp only [resultOf, h', if_true, and_self]
  · intro h
    have h' : ¬ wrapInt (p.UpVotes + p.DownVotes) > 0 := h
    simp only [resultOf, h', if_false, and_self]
  · intro h
    have h' : ¬ wrapInt (p.UpVotes + p.DownVotes) > 0 := by
      have : wrapInt (p.UpVotes + p.DownVotes) = 0 := h
      omega
    simp only [resultOf, h', if_false, and_self]

/-- Witness of C6: an entity with 8 up-votes and 2 down-votes. -/
theorem resultOf_fields_witness :
    (resultOf (entity 1 8 2)).TotalVotes = 10 ∧ (resultOf (entity 1 8 2)).WinPercentage = 80 ∧
      (resultOf (entity 1 8 2)).LossPercentage = 20 := by
  have h := resultOf_fields (entity 1 8 2)
  refine ⟨h.2.1 (by decide), ?_, ?_⟩
  · rw [(h.2.2.1 (by decide)).1]; decide!
  · rw [(h.2.2.1 (by decide)).2]; decide!

/-- C10. For every non-empty input the ranking returns a rearrangement of the rows built
from the input: same length, each entity's row present as often as the entity is, carrying
its name, id, dexId, upVotes and downVotes unchanged.  This holds for every sorting
routine that meets the contract of `sort.Slice`. -/
theorem ranking_perm (sortSlice : SliceSorter) (hs : SortSliceSpec sortSlice)
    (pokemon : List Pokemon) (hne : pokemon ≠ []) :
    ∃ out, ranking sortSlice pokemon = .ok out ∧
      out.Perm (pokemon.map resultOf) ∧
      out.length = pokemon.length ∧
      (out.map Result.carried).Perm (pokemon.map Pokemon.carried) ∧
      (∀ p ∈ pokemon, ∃ r ∈ out, r.carried = p.carried) ∧
      (∀ r ∈ out, ∃ p ∈ pokemon, r = resultOf p) := by
  have hperm := (hs less (pokemon.map resultOf) less_ok).1
  refine ⟨_, ranking_of_ne_nil sortSlice pokemon hne, hperm, ?_, ?_, ?_, ?_⟩
  · rw [hperm.length_eq, List.length_map]
  · have h := hperm.map Result.carried
    rw [List.map_map] at h
    exact h
  · intro p hp
    exact ⟨resultOf p, hperm.symm.subset (List.mem_map_of_mem _ hp), rfl⟩
  · intro r hr
    obtain ⟨p, hp, rfl⟩ := List.mem_map.1 (hperm.subset hr)
    exact ⟨p, hp, rfl⟩

/-- Witness of C10: Go's own sorting routine on the example of the specification. -/
theorem ranking_perm_witness :
    SortSliceSpec goSort ∧ specExample ≠ [] ∧
      ∃ out, ranking goSort specExample = .ok out ∧
        out.Perm (specExample.map resultOf) ∧
        out.length = specExample.length ∧
        (out.map Result.carried).Perm (specExample.map Pokemon.carried) ∧
        (∀ p ∈ specExample, ∃ r ∈ out, r.carried = p.carried) ∧
        (∀ r ∈ out, ∃ p ∈ specExample, r = resultOf p) :=
  ⟨goSort_spec, by decide, ranking_perm goSort goSort_spec specExample (by decide)⟩

/-- C9. A successful read of fewer than 2 rows makes `randomPair` return the nil value and
no error; a read of exactly 2 rows makes it return the pair of the first and the second
row. -/
theorem randomPair_spec (pokemon : List Pokemon) (h : pokemon.length < 2) (one two : Pokemon) :
    randomPair (.ok pokemon) = .ok none ∧
      randomPair (.ok [one, two]) = .ok (some ⟨one, two⟩) := by
  constructor
  · unfold randomPair
    simp [h]
  · rfl

/-- Witness of C9: a store holding a single entity. -/
theorem randomPair_spec_witness :
    [entity 1 0 0].length < 2 ∧ randomPair (.ok [entity 1 0 0]) = .ok none ∧
      randomPair (.ok [entity 1 0 0, entity 2 0 0]) = .ok (some ⟨entity 1 0 0, entity 2 0 0⟩) :=
  ⟨by decide, randomPair_spec [entity 1 0 0] (by decide) (entity 1 0 0) (entity 2 0 0)⟩

/-- The `float64` percentage of a non-negative counter lies within five unit roundoffs,
relatively, of the exact quotient times one hundred. -/
theorem percentage_bounds (u t : Int) (hu : 0 ≤ u) (ht : 0 < t) :
    (u : ℚ) / t * 100 * (1 - 5 * f64eps) ≤ f64mul (f64div (f64ofInt u) (f64ofInt t)) 100 ∧
      f64mul (f64div (f64ofInt u) (f64ofInt t)) 100 ≤ (u : ℚ) / t * 100 * (1 + 5 * f64eps) := by
  have hx : (0 : ℚ) ≤ u := by exact_mod_cast hu
  have hy : (0 : ℚ) < t := by exact_mod_cast ht
  have he1 : (0 : ℚ) < 1 - f64eps := by unfold f64eps; norm_num
  have he2 : (0 : ℚ) < 1 + f64eps := by unfold f64eps; norm_num
  have hc : (0 : ℚ) ≤ (u : ℚ) / t := div_nonneg hx hy.le
  obtain ⟨hU1, hU2⟩ := f64round_bounds (u : ℚ) hx
  obtain ⟨hT1, hT2⟩ := f64round_bounds (t : ℚ) hy.le
  have hT := f64round_pos (t : ℚ) hy
  have hU := f64round_nonneg (u : ℚ) hx
  have hR : 0 ≤ f64round (u : ℚ) / f64round (t : ℚ) := div_nonneg hU hT.le
  have hRup : f64round (u : ℚ) / f64round (t : ℚ) ≤ (u : ℚ) / t * ((1 + f64eps) / (1 - f64eps)) := by
    rw [div_le_iff₀ hT]
    calc f64round (u : ℚ) ≤ (u : ℚ) * (1 + f64eps) := hU2
      _ = (u : ℚ) / t * ((1 + f64eps) / (1 - f64eps)) * ((t : ℚ) * (1 - f64eps)) := by
        field_simp
      _ ≤ (u : ℚ) / t * ((1 + f64eps) / (1 - f64eps)) * f64round (t : ℚ) :=
        mul_le_mul_of_nonneg_left hT1 (mul_nonneg hc (div_nonneg he2.le he1.le))
  have hRlo : (u : ℚ) / t * ((1 - f64eps) / (1 + f64eps)) ≤ f64round (u : ℚ) / f64round (t : ℚ) := by
    rw [le_div_iff₀ hT]
    calc (u : ℚ) / t * ((1 - f64eps) / (1 + f64eps)) * f64round (t : ℚ)
        ≤ (u : ℚ) / t * ((1 - f64eps) / (1 + f64eps)) * ((t : ℚ) * (1 + f64eps)) :=
          mul_le_mul_of_nonneg_left hT2 (mul_nonneg hc (div_nonneg he1.le he2.le))
      _ = (u : ℚ) * (1 - f64eps) := by field_simp
      _ ≤ f64round (u : ℚ) := hU1
  obtain ⟨hQ1, hQ2⟩ := f64round_bounds _ hR
  have hQ := f64round_nonneg _ hR
  obtain ⟨hW1, hW2⟩ := f64round_bounds (f64round (f64round (u : ℚ) / f64round (t : ℚ)) * 100)
    (mul_nonneg hQ (by norm_num))
  have hKup : (1 + f64eps) / (1 - f64eps) * (1 + f64eps) * (1 + f64eps) ≤ 1 + 5 * f64eps := by
    unfold f64eps; norm_num
  have hKlo : 1 - 5 * f64eps ≤ (1 - f64eps) / (1 + f64eps) * (1 - f64eps) * (1 - f64eps) := by
    unfold f64eps; norm_num
  unfold f64mul f64div f64ofInt
  constructor
  · calc (u : ℚ) / t * 100 * (1 - 5 * f64eps)
        ≤ (u : ℚ) / t * 100 * ((1 - f64eps) / (1 + f64eps) * (1 - f64eps) * (1 - f64eps)) :=
          mul_le_mul_of_nonneg_left hKlo (mul_nonneg hc (by norm_num))
      _ = (u : ℚ) / t * ((1 - f64eps) / (1 + f64eps)) * (1 - f64eps) * 100 * (1 - f64eps) := by
        ring
      _ ≤ f64round (u : ℚ) / f64round (t : ℚ) * (1 - f64eps) * 100 * (1 - f64eps) := by
        gcongr
      _ ≤ f64round (f64round (u : ℚ) / f64round (t : ℚ)) * 100 * (1 - f64eps) := by
        gcongr
      _ ≤ _ := hW1
  · calc f64round (f64round (f64round (u : ℚ) / f64round (t : ℚ)) * 100)
        ≤ f64round (f64round (u : ℚ) / f64round (t : ℚ)) * 100 * (1 + f64eps) := hW2
      _ ≤ f64round (u : ℚ) / f64round (t : ℚ) * (1 + f64eps) * 100 * (1 + f64eps) := by
        gcongr
      _ ≤ (u : ℚ) / t * ((1 + f64eps) / (1 - f64eps)) * (1 + f64eps) * 100 * (1 + f64eps) := by
        gcongr
      _ = (u : ℚ) / t * 100 * ((1 + f64eps) / (1 - f64eps) * (1 + f64eps) * (1 + f64eps)) := by
        ring
      _ ≤ (u : ℚ) / t * 100 * (1 + 5 * f64eps) :=
        mul_le_mul_of_nonneg_left hKup (mul_nonneg hc (by norm_num))

/-- With non-negative counters inside the range of `int`, a positive `totalVotes` is the
mathematical sum of the counters. -/
theorem total_eq_sum (p : Pokemon) (hu : 0 ≤ p.UpVotes) (hd : 0 ≤ p.DownVotes)
    (hu2 : p.UpVotes < 2 ^ 63) (hd2 : p.DownVotes < 2 ^ 63)
    (ht : 0 < (resultOf p).TotalVotes) :
    (resultOf p).TotalVotes = p.UpVotes + p.DownVotes := by
  have h : 0 < wrapInt (p.UpVotes + p.DownVotes) := ht
  show wrapInt (p.UpVotes + p.DownVotes) = p.UpVotes + p.DownVotes
  unfold wrapInt at h ⊢
  omega

/-- C7. For every row built from non-negative counters (inside the range of `int`) whose
`totalVotes` is positive: the percentages of the specification's formula, computed over
the rationals, add up to exactly 100; the `float64` percentages of the code are within 5
unit roundoffs (relative) of them, their exact sum is within `500 * 2^-53` of 100, and
their `float64` sum is within `601 * 2^-53` (below `7e-14`) of 100. -/
theorem percentages_sum (p : Pokemon) (hu : 0 ≤ p.UpVotes) (hd : 0 ≤ p.DownVotes)
    (hu2 : p.UpVotes < 2 ^ 63) (hd2 : p.DownVotes < 2 ^ 63)
    (ht : 0 < (resultOf p).TotalVotes) :
    exactWinPercentage p + exactLossPercentage p = 100 ∧
    |(resultOf p).WinPercentage - exactWinPercentage p| ≤ 5 * f64eps * exactWinPercentage p ∧
    |(resultOf p).LossPercentage - exactLossPercentage p| ≤
      5 * f64eps * exactLossPercentage p ∧
    |(resultOf p).WinPercentage + (resultOf p).LossPercentage - 100| ≤ 500 * f64eps ∧
    |f64add (resultOf p).WinPercentage (resultOf p).LossPercentage - 100| ≤ 601 * f64eps := by
  have htot := total_eq_sum p hu hd hu2 hd2 ht
  have hpos : 0 < p.UpVotes + p.DownVotes := htot ▸ ht
  have hposq : (0 : ℚ) < ((p.UpVotes + p.DownVotes : Int) : ℚ) := by exact_mod_cast hpos
  have hw : (resultOf p).WinPercentage =
      f64mul (f64div (f64ofInt p.UpVotes) (f64ofInt (p.UpVotes + p.DownVotes))) 100 := by
    have h2 : wrapInt (p.UpVotes + p.DownVotes) = p.UpVotes + p.DownVotes := htot
    simp only [resultOf, h2, gt_iff_lt, hpos, if_true]
  have hl : (resultOf p).LossPercentage =
      f64mul (f64div (f64ofInt p.DownVotes) (f64ofInt (p.UpVotes + p.DownVotes))) 100 := by
    have h2 : wrapInt (p.UpVotes + p.DownVotes) = p.UpVotes + p.DownVotes := htot
    simp only [resultOf, h2, gt_iff_lt, hpos, if_true]
  have hew : exactWinPercentage p =
      (p.UpVotes : ℚ) / ((p.UpVotes + p.DownVotes : Int) : ℚ) * 100 := by
    simp only [exactWinPercentage, gt_iff_lt, hpos, if_true]
  have hel : exactLossPercentage p =
      (p.DownVotes : ℚ) / ((p.UpVotes + p.DownVotes : Int) : ℚ) * 100 := by
    simp only [exactLossPercentage, gt_iff_lt, hpos, if_true]
  have hsum : exactWinPercentage p + exactLossPercentage p = 100 := by
    rw [hew, hel, ← add_mul, ← add_div]
    have hcast : ((p.UpVotes + p.DownVotes : Int) : ℚ) = (p.UpVotes : ℚ) + (p.DownVotes : ℚ) := by
      push_cast; rfl
    rw [← hcast, div_self hposq.ne']
    norm_num
  have hew0 : 0 ≤ exactWinPercentage p := by
    rw [hew]; exact mul_nonneg (div_nonneg (by exact_mod_cast hu) hposq.le) (by norm_num)
  have hel0 : 0 ≤ exactLossPercentage p := by
    rw [hel]; exact mul_nonneg (div_nonneg (by exact_mod_cast hd) hposq.le) (by norm_num)
  obtain ⟨hw1, hw2⟩ := percentage_bounds p.UpVotes (p.UpVotes + p.DownVotes) hu hpos
  obtain ⟨hl1, hl2⟩ := percentage_bounds p.DownVotes (p.UpVotes + p.DownVotes) hd hpos
  rw [← hw, ← hew] at hw1 hw2
  rw [← hl, ← hel] at hl1 hl2
  have heps : (0 : ℚ) < f64eps := by unfold f64eps; norm_num
  have heps1 : f64eps < 1 / 1000 := by unfold f64eps; norm_num
  have hW0 : 0 ≤ (resultOf p).WinPercentage := by
    have : 0 ≤ exactWinPercentage p * (1 - 5 * f64eps) := mul_nonneg hew0 (by linarith)
    linarith
  have hL0 : 0 ≤ (resultOf p).LossPercentage := by
    have : 0 ≤ exactLossPercentage p * (1 - 5 * f64eps) := mul_nonneg hel0 (by linarith)
    linarith
  have hS1 : 100 - 500 * f64eps ≤ (resultOf p).WinPercentage + (resultOf p).LossPercentage := by
    nlinarith
  have hS2 : (resultOf p).WinPercentage + (resultOf p).LossPercentage ≤ 100 + 500 * f64eps := by
    nlinarith
  obtain ⟨hA1, hA2⟩ := f64round_bounds
    ((resultOf p).WinPercentage + (resultOf p).LossPercentage) (add_nonneg hW0 hL0)
  refine ⟨hsum, ?_, ?_, ?_, ?_⟩
  · rw [abs_le]; constructor <;> nlinarith
  · rw [abs_le]; constructor <;> nlinarith
  · rw [abs_le]; constructor <;> linarith
  · unfold f64add
    have hee : f64eps * f64eps ≤ f64eps / 1000 := by unfold f64eps; norm_num
    have hee0 : 0 ≤ f64eps * f64eps := mul_nonneg heps.le heps.le
    have h3 : ((resultOf p).WinPercentage + (resultOf p).LossPercentage) * (1 + f64eps) ≤
        (100 + 500 * f64eps) * (1 + f64eps) := mul_le_mul_of_nonneg_right hS2 (by linarith)
    have h4 : (100 - 500 * f64eps) * (1 - f64eps) ≤
        ((resultOf p).WinPercentage + (resultOf p).LossPercentage) * (1 - f64eps) :=
      mul_le_mul_of_nonneg_right hS1 (by linarith)
    rw [abs_le]
    constructor <;> linarith

/-- Witness of C7: an entity with one win and two losses, whose `float64` percentages add
up to less than 100. -/
theorem percentages_sum_witness :
    (0 : Int) < (resultOf (entity 1 1 2)).TotalVotes ∧
      exactWinPercentage (entity 1 1 2) + exactLossPercentage (entity 1 1 2) = 100 ∧
      (resultOf (entity 1 1 2)).WinPercentage + (resultOf (entity 1 1 2)).LossPercentage ≠ 100 ∧
      |(resultOf (entity 1 1 2)).WinPercentage + (resultOf (entity 1 1 2)).LossPercentage - 100|
        ≤ 500 * f64eps := by
  have h := percentages_sum (entity 1 1 2) (by decide) (by decide) (by norm_num [entity])
    (by norm_num [entity]) (by decide)
  exact ⟨by decide, h.1, by decide!, h.2.2.2.1⟩

/-! ## The claims about the vote transaction -/

/-- C2. After `vote(upvoteId = A, downvoteId = B)` with `A ≠ B` has returned success, the
committed table has the same rows in the same places, and row by row: an entity with id
`A` has one more up-vote and its down-votes unchanged, an entity with id `B` has one more
down-vote and its up-votes unchanged, every other entity is unchanged. -/
theorem vote_increments (f : Faults) (A B : Int) (table : List Pokemon) (hAB : A ≠ B)
    (_hA : ∃ p ∈ table, p.ID = A) (_hB : ∃ p ∈ table, p.ID = B)
    (hok : (vote f A B (idle table)).1 = .ok ⟨true⟩) :
    (vote f A B (idle table)).2.committed.length = table.length ∧
    ∀ i (h : i < table.length) (h2 : i < (vote f A B (idle table)).2.committed.length),
      ((vote f A B (idle table)).2.committed.get ⟨i, h2⟩).ID = (table.get ⟨i, h⟩).ID ∧
      ((table.get ⟨i, h⟩).ID = A →
        ((vote f A B (idle table)).2.committed.get ⟨i, h2⟩).UpVotes =
            (table.get ⟨i, h⟩).UpVotes + 1 ∧
          ((vote f A B (idle table)).2.committed.get ⟨i, h2⟩).DownVotes =
            (table.get ⟨i, h⟩).DownVotes) ∧
      ((table.get ⟨i, h⟩).ID = B →
        ((vote f A B (idle table)).2.committed.get ⟨i, h2⟩).DownVotes =
            (table.get ⟨i, h⟩).DownVotes + 1 ∧
          ((vote f A B (idle table)).2.committed.get ⟨i, h2⟩).UpVotes =
            (table.get ⟨i, h⟩).UpVotes) ∧
      ((table.get ⟨i, h⟩).ID ≠ A → (table.get ⟨i, h⟩).ID ≠ B →
        (vote f A B (idle table)).2.committed.get ⟨i, h2⟩ = table.get ⟨i, h⟩) := by
  have hv := vote_eq f A B table
  rcases f with ⟨_ | e1, _ | e2, _ | e3, _ | e4⟩ <;> simp only [] at hv <;>
    rw [hv] at hok ⊢ <;> first | (exfalso; simp at hok; done) | skip
  refine ⟨by simp [idle, incDownVotes, incUpVotes], ?_⟩
  intro i h h2
  simp only [idle, incDownVotes, incUpVotes, List.get_eq_getElem, List.getElem_map, List.map_map,
    Function.comp]
  by_cases hA : (table[i]).ID = A
  · have hB : (table[i]).ID ≠ B := fun hB => hAB (hA.symm.trans hB)
    simp [hA, hB, hAB]
  · by_cases hB : (table[i]).ID = B
    · have hBA : ¬ B = A := fun h => hAB h.symm
      simp [hB, hBA]
    · simp [hA, hB]

/-- Witness of C2: ids 1 and 2 in a store of three entities. -/
theorem vote_increments_witness :
    (1 : Int) ≠ 2 ∧ (vote noFaults 1 2 (idle specExample)).1 = .ok ⟨true⟩ ∧
      (vote noFaults 1 2 (idle specExample)).2.committed =
        [entity 1 9 2, entity 2 6 1, entity 3 0 0] ∧
      (vote noFaults 1 2 (idle specExample)).2.committed.length = specExample.length :=
  ⟨by decide, rfl, rfl,
    (vote_increments noFaults 1 2 specExample (by decide) (by decide) (by decide) rfl).1⟩

/-- C3. If the begin step, either increment statement or the commit step fails, `vote`
returns an error and leaves the store exactly as it was, no transaction open; in
particular, when the second increment fails the error of that statement is returned and
the table, the winner's up-votes included, is as before. -/
theorem vote_atomic (f : Faults) (A B : Int) (table : List Pokemon)
    (hfail : f.onBegin.isSome ∨ f.onExecUp.isSome ∨ f.onExecDown.isSome ∨ f.onCommit.isSome) :
    (∃ err, (vote f A B (idle table)).1 = .error err) ∧
    (vote f A B (idle table)).2 = idle table ∧
    (∀ err, f.onBegin = none → f.onExecUp = none → f.onExecDown = some err →
      vote f A B (idle table) = (.error err, idle table)) := by
  have hv := vote_eq f A B table
  rcases f with ⟨_ | e1, _ | e2, _ | e3, _ | e4⟩ <;> simp only [] at hv <;> rw [hv] <;>
    simp at hfail ⊢

/-- Witness of C3: the second increment fails. -/
theorem vote_atomic_witness :
    (vote ⟨none, none, some ⟨"statement failed"⟩, none⟩ 1 2 (idle specExample)).2 =
      idle specExample :=
  (vote_atomic ⟨none, none, some ⟨"statement failed"⟩, none⟩ 1 2 specExample
    (Or.inr (Or.inr (Or.inl rfl)))).2.1

/-- C4 (counterexample). No entity has id 99, every store call succeeds, and
`vote(upvoteId = 1, downvoteId = 99)` returns success with the up-votes of entity 1
raised from 0 to 1: the unmatched statement is no error and nothing is rolled back. -/
theorem vote_unknown_id_succeeds :
    (∀ p ∈ [entity 1 0 0], p.ID ≠ 99) ∧
      vote noFaults 1 99 (idle [entity 1 0 0]) = (.ok ⟨true⟩, idle [entity 1 1 0]) :=
  ⟨by decide, rfl⟩

/-- C4 (amended). When `upvoteId` or `downvoteId` matches no entity, `vote` does not fail
on that account: if begin, both statements and commit succeed it returns success, the
statement with the unmatched id changes no row and the other statement still increments;
it returns an error, with the store unchanged, exactly when one of the four store calls
fails. -/
theorem vote_unmatched_id (f : Faults) (A B : Int) (table : List Pokemon) :
    (f = noFaults →
      (vote f A B (idle table)).1 = .ok ⟨true⟩ ∧
      ((∀ p ∈ table, p.ID ≠ A) →
        (vote f A B (idle table)).2 = idle (incDownVotes B table)) ∧
      ((∀ p ∈ table, p.ID ≠ B) →
        (vote f A B (idle table)).2 = idle (incUpVotes A table)) ∧
      ((∀ p ∈ table, p.ID ≠ A) → (∀ p ∈ table, p.ID ≠ B) →
        (vote f A B (idle table)).2 = idle table)) ∧
    (f ≠ noFaults →
      (∃ err, (vote f A B (idle table)).1 = .error err) ∧
        (vote f A B (idle table)).2 = idle table) := by
  have hv := vote_eq f A B table
  have hdown : (∀ p ∈ table, p.ID ≠ B) →
      incDownVotes B (incUpVotes A table) = incUpVotes A table := by
    intro hB
    apply incDownVotes_unmatched
    intro p hp
    obtain ⟨q, hq, hqp⟩ := incUpVotes_ids A table p hp
    rw [← hqp]
    exact hB q hq
  constructor
  · rintro rfl
    have hv2 : vote noFaults A B (idle table) =
        (.ok ⟨true⟩, idle (incDownVotes B (incUpVotes A table))) := vote_eq noFaults A B table
    rw [hv2]
    refine ⟨rfl, ?_, ?_, ?_⟩
    · intro hA
      rw [incUpVotes_unmatched A table hA]
    · intro hB
      rw [hdown hB]
    · intro hA hB
      rw [hdown hB, incUpVotes_unmatched A table hA]
  · intro hne
    rcases f with ⟨_ | e1, _ | e2, _ | e3, _ | e4⟩ <;> simp only [] at hv <;> rw [hv] <;>
      simp [noFaults] at hne ⊢

/-- Witness of C4 (amended): a down-vote for the missing id 99. -/
theorem vote_unmatched_id_witness :
    (∀ p ∈ [entity 1 0 0], p.ID ≠ 99) ∧
      (vote noFaults 1 99 (idle [entity 1 0 0])).1 = .ok ⟨true⟩ :=
  ⟨by decide,
    ((vote_unmatched_id noFaults 1 99 [entity 1 0 0]).1 rfl).1⟩

/-! ## Stability of the ranking -/

/-- C8 (counterexample). In the thirteen-entity input, ordered as the store orders it,
the entities with ids 3 and 7 have no votes (equal win percentage, equal up-votes) and 3
precedes 7.  A routine meeting the contract of `sort.Slice` returns 7 before 3; so does
the pattern-defeating quicksort of Go itself, which meets the contract too and ranks the
ids 2, 1, 7, 4, 5, 6, 3, 8, 9, 10, 11, 12, 13. -/
theorem ranking_not_stable :
    List.Sublist [entity 3 0 0, entity 7 0 0] tieExample ∧
    (resultOf (entity 3 0 0)).WinPercentage = (resultOf (entity 7 0 0)).WinPercentage ∧
    (resultOf (entity 3 0 0)).UpVotes = (resultOf (entity 7 0 0)).UpVotes ∧
    SortSliceSpec reversingSort ∧
    (∃ out, ranking reversingSort tieExample = .ok out ∧
      ¬ List.Sublist [resultOf (entity 3 0 0), resultOf (entity 7 0 0)] out) ∧
    SortSliceSpec goSort ∧
    (∃ out, goSortSlice less (tieExample.map resultOf) = some out ∧
      ranking goSort tieExample = .ok out ∧
      out.map (fun r => r.ID) = [2, 1, 7, 4, 5, 6, 3, 8, 9, 10, 11, 12, 13] ∧
      ¬ List.Sublist [resultOf (entity 3 0 0), resultOf (entity 7 0 0)] out) := by
  refine ⟨by decide, by decide!, rfl, reversingSort_spec, ⟨_, rfl, by decide!⟩, goSort_spec, ?_⟩
  have hgo : goSortSlice less (tieExample.map resultOf) =
      some ([2, 1, 7, 4, 5, 6, 3, 8, 9, 10, 11, 12, 13].map (fun i => resultOf (entity i 0 0)
        |> fun r => if r.ID = 1 then resultOf (entity 1 5 5)
          else if r.ID = 2 then resultOf (entity 2 1 0) else r)) := by decide!
  refine ⟨_, hgo, ?_, by decide!, by decide!⟩
  show Except.ok ((goSortSlice less (tieExample.map resultOf)).getD _) = _
  rw [hgo]
  rfl

/-- Rows standing between two rows of equal win percentage and equal up-votes share both. -/
theorem between_ties (out : List Result)
    (hsorted : out.Pairwise (fun a b => less b a = false))
    (i j k : Nat) (hij : i ≤ j) (hjk : j ≤ k) (hk : k < out.length)
    (hw : (out.get ⟨i, by omega⟩).WinPercentage = (out.get ⟨k, hk⟩).WinPercentage)
    (hu : (out.get ⟨i, by omega⟩).UpVotes = (out.get ⟨k, hk⟩).UpVotes) :
    (out.get ⟨j, by omega⟩).WinPercentage = (out.get ⟨i, by omega⟩).WinPercentage ∧
      (out.get ⟨j, by omega⟩).UpVotes = (out.get ⟨i, by omega⟩).UpVotes := by
  rw [List.pairwise_iff_get] at hsorted
  rcases Nat.eq_or_lt_of_le hij with rfl | hij'
  · exact ⟨rfl, rfl⟩
  rcases Nat.eq_or_lt_of_le hjk with rfl | hjk'
  · exact ⟨hw.symm, hu.symm⟩
  have h1 := (less_false_iff _ _).1 (hsorted ⟨i, by omega⟩ ⟨j, by omega⟩ hij')
  have h2 := (less_false_iff _ _).1 (hsorted ⟨j, by omega⟩ ⟨k, hk⟩ hjk')
  rcases h1 with h1 | ⟨h1, h1'⟩ <;> rcases h2 with h2 | ⟨h2, h2'⟩
  · exfalso; linarith
  · exfalso; linarith
  · exfalso; linarith
  · exact ⟨h1.symm, by omega⟩

/-- C8 (amended). The ranking does not promise input order among ties.  For every routine
meeting the contract of `sort.Slice` and any two entities of the input with identical win
percentage and identical up-votes, both rows are in the output and every row standing
between two rows of equal win percentage and up-votes has that win percentage and those
up-votes: ties form one contiguous run, in an order left open. -/
theorem ranking_ties_contiguous (sortSlice : SliceSorter) (hs : SortSliceSpec sortSlice)
    (pokemon : List Pokemon) (X Y : Pokemon) (hX : X ∈ pokemon) (hY : Y ∈ pokemon)
    (_hw : (resultOf X).WinPercentage = (resultOf Y).WinPercentage)
    (_hu : X.UpVotes = Y.UpVotes) :
    ∃ out, ranking sortSlice pokemon = .ok out ∧ resultOf X ∈ out ∧ resultOf Y ∈ out ∧
      ∀ i j k (hij : i ≤ j) (hjk : j ≤ k) (hk : k < out.length),
        (out.get ⟨i, by omega⟩).WinPercentage = (out.get ⟨k, hk⟩).WinPercentage →
        (out.get ⟨i, by omega⟩).UpVotes = (out.get ⟨k, hk⟩).UpVotes →
        (out.get ⟨j, by omega⟩).WinPercentage = (out.get ⟨i, by omega⟩).WinPercentage ∧
          (out.get ⟨j, by omega⟩).UpVotes = (out.get ⟨i, by omega⟩).UpVotes := by
  have hne : pokemon ≠ [] := List.ne_nil_of_mem hX
  obtain ⟨hperm, hadj⟩ := hs less (pokemon.map resultOf) less_ok
  refine ⟨_, ranking_of_ne_nil sortSlice pokemon hne,
    hperm.symm.subset (List.mem_map_of_mem _ hX), hperm.symm.subset (List.mem_map_of_mem _ hY), ?_⟩
  intro i j k hij hjk hk hw hu
  exact between_ties _ (pairwise_of_adjacent less_ok _ hadj) i j k hij hjk hk hw hu

/-- Witness of C8 (amended): the entities 3 and 7 of the thirteen-entity input, under Go's
own sorting routine. -/
theorem ranking_ties_contiguous_witness :
    SortSliceSpec goSort ∧ entity 3 0 0 ∈ tieExample ∧ entity 7 0 0 ∈ tieExample ∧
      ∃ out, ranking goSort tieExample = .ok out ∧
        resultOf (entity 3 0 0) ∈ out ∧ resultOf (entity 7 0 0) ∈ out :=
  ⟨goSort_spec, by decide, by decide,
    let ⟨out, h1, h2, h3, _⟩ := ranking_ties_contiguous goSort goSort_spec
      tieExample (entity 3 0 0) (entity 7 0 0) (by decide) (by decide) (by decide!) rfl
    ⟨out, h1, h2, h3⟩⟩

end Roundest
